import Mathlib

/-!
Verification of the go-micro service registry/discovery core.

The Go maps `service map[string][]*ServiceNode` and `method map[string]string`
are embedded as association lists with unique keys; map assignment, deletion
and lookup become `ainsert`, `aerase` and `alookup`.  All definitions are
transcribed from the repository sources (file and line references are given
on each definition).
-/

namespace GoMicro

/-- Meta from registry/model.go: service identity (env, appId, version). -/
structure Meta where
  env : String
  appId : String
  version : String
deriving DecidableEq

/-- Kernel from registry/model.go: runtime language/version info. -/
structure Kernel where
  language : String
  version : String
deriving DecidableEq

/-- Network from registry/model.go: sn/internal/external addresses. -/
structure Network where
  sn : String
  internal : String
  external : String
deriving DecidableEq

/-- ServiceNode from registry/service_node.go.  `methods` is the key set of
the Go `map[string]bool` (iteration visits every key); `meta`, `network`,
`kernel` are nilable pointers, hence `Option`. -/
structure ServiceNode where
  protoCount : Nat
  leaseId : Int
  weight : Nat
  runDate : String
  methods : List String
  network : Option Network
  kernel : Option Kernel
  meta : Option Meta
deriving DecidableEq

/-- Association-list lookup, the embedding of Go map read `m[k]` (the `ok`
flag is `Option.isSome`). -/
def alookup {β : Type} (k : String) : List (String × β) → Option β
  | [] => none
  | (k', v) :: rest => if k' = k then some v else alookup k rest

/-- Association-list insert, the embedding of Go map assignment `m[k] = v`
(replaces any previous binding of `k`). -/
def ainsert {β : Type} (k : String) (v : β) (m : List (String × β)) : List (String × β) :=
  (k, v) :: m.filter (fun p => p.1 ≠ k)

/-- Association-list erase, the embedding of Go `delete(m, k)`. -/
def aerase {β : Type} (k : String) (m : List (String × β)) : List (String × β) :=
  m.filter (fun p => p.1 ≠ k)

theorem alookup_ainsert_self {β : Type} (k : String) (v : β) (m : List (String × β)) :
    alookup k (ainsert k v m) = some v := by
  simp [alookup, ainsert]

theorem alookup_filter_of_ne {β : Type} (k : String) (m : List (String × β))
    (p : String × β → Bool) (h : ∀ q : String × β, q.1 = k → p q = true) :
    alookup k (m.filter p) = alookup k m := by
  induction m with
  | nil => rfl
  | cons q rest ih =>
    by_cases hk : q.1 = k
    · have := h q hk
      cases q with
      | mk k' v => simp_all [alookup, List.filter_cons]
    · cases q with
      | mk k' v =>
        simp only [List.filter_cons]
        by_cases hp : p (k', v) = true
        · simp [hp, alookup, hk, ih]
        · simp only [Bool.not_eq_true] at hp
          simp [hp, alookup, hk, ih]

theorem alookup_ainsert_ne {β : Type} (k k' : String) (v : β) (m : List (String × β))
    (h : k' ≠ k) : alookup k (ainsert k' v m) = alookup k m := by
  unfold ainsert
  rw [alookup]
  simp only [if_neg h]
  exact alookup_filter_of_ne k m _ (by intro q hq; simp [hq, Ne.symm h])

theorem alookup_aerase_ne {β : Type} (k k' : String) (m : List (String × β))
    (h : k' ≠ k) : alookup k (aerase k' m) = alookup k m :=
  alookup_filter_of_ne k m _ (by intro q hq; simp [hq, Ne.symm h])

/-- Keys of an association list. -/
def akeys {β : Type} (m : List (String × β)) : List String := m.map Prod.fst

theorem alookup_eq_none_of_not_mem_akeys {β : Type} (k : String) (m : List (String × β))
    (h : k ∉ akeys m) : alookup k m = none := by
  induction m with
  | nil => rfl
  | cons q rest ih =>
    cases q with
    | mk k' v =>
      simp only [akeys, List.map_cons, List.mem_cons] at h
      push_neg at h
      have h1 : ¬ k' = k := fun hh => h.1 hh.symm
      simp [alookup, h1, ih (by simpa [akeys] using h.2)]

theorem alookup_aerase_self {β : Type} (k : String) (m : List (String × β)) :
    alookup k (aerase k m) = none := by
  apply alookup_eq_none_of_not_mem_akeys
  intro hmem
  rcases List.mem_map.mp hmem with ⟨q, hq, hfst⟩
  have := List.of_mem_filter hq
  simp [hfst] at this

theorem akeys_nodup_ainsert {β : Type} (k : String) (v : β) (m : List (String × β))
    (h : (akeys m).Nodup) : (akeys (ainsert k v m)).Nodup := by
  unfold ainsert akeys
  rw [List.map_cons]
  refine List.nodup_cons.mpr ⟨?_, ?_⟩
  · intro hmem
    rcases List.mem_map.mp hmem with ⟨q, hq, hfst⟩
    have := List.of_mem_filter hq
    simp [hfst] at this
  · exact (List.Sublist.map Prod.fst (List.filter_sublist m)).nodup h

theorem akeys_nodup_filter {β : Type} (p : String × β → Bool) (m : List (String × β))
    (h : (akeys m).Nodup) : (akeys (m.filter p)).Nodup :=
  (List.Sublist.map Prod.fst (List.filter_sublist m)).nodup h

/-- Lookup after filtering on values: entries whose value satisfies the kept
predicate survive, the (unique, by Nodup) entry for the key vanishes when its
value is filtered out. -/
theorem alookup_filter_value {β : Type} [DecidableEq β] (k : String) (bad : β → Prop)
    [DecidablePred bad] (m : List (String × β)) (h : (akeys m).Nodup) :
    alookup k (m.filter (fun p => ¬ bad p.2)) =
      (alookup k m).bind (fun v => if bad v then none else some v) := by
  induction m with
  | nil => rfl
  | cons q rest ih =>
    cases q with
    | mk k' v =>
      simp only [akeys, List.map_cons] at h
      have h2 := List.nodup_cons.mp h
      have hk' : k' ∉ akeys rest := h2.1
      have hnd : (akeys rest).Nodup := h2.2
      rw [List.filter_cons]
      by_cases hb : bad v
      · rw [if_neg (by simpa using hb)]
        by_cases hk : k' = k
        · subst hk
          have hrest : alookup k' rest = none :=
            alookup_eq_none_of_not_mem_akeys k' rest hk'
          rw [ih hnd, hrest, alookup]
          simp [hb]
        · rw [ih hnd, alookup, if_neg hk]
      · rw [if_pos (by simpa using hb)]
        by_cases hk : k' = k
        · subst hk
          rw [alookup, alookup]
          simp [hb]
        · rw [alookup, alookup, if_neg hk, if_neg hk, ih hnd]

/-- ServiceMethod from registry/service_method.go: derived index method -> appId. -/
abbrev ServiceMethod := List (String × String)

/-- ServiceDiscover from registry/service_node.go: primary table appId -> nodes. -/
abbrev ServiceDiscover := List (String × List ServiceNode)

/-- The two in-memory indices of a DiscoverInstance (registry/register.go,
etcd variant, fields `method`/`service`). -/
structure DiscoverState where
  service : ServiceDiscover
  method : ServiceMethod
deriving DecidableEq

/-- The empty indices created by NewDiscover (`make(micro.ServiceMethod)`,
`make(micro.ServiceDiscover)`). -/
def emptyState : DiscoverState := { service := [], method := [] }

/-- The adapter's dirty-data guard `val.Meta == nil || val.Meta.AppId == "" ||
val.Meta.Env == ""` (negated: the value is accepted). -/
def validMeta (n : ServiceNode) : Bool :=
  match n.meta with
  | none => false
  | some mt => decide (mt.appId ≠ "") && decide (mt.env ≠ "")

/-- The Go expression `val.Meta.AppId` (defined only when meta is present;
"" otherwise, matching the zero value the guards exclude). -/
def metaAppId (n : ServiceNode) : String :=
  match n.meta with
  | none => ""
  | some mt => mt.appId

/-- The skip guard of refreshMethodsLocked: `node == nil || node.Meta == nil ||
node.Meta.AppId == ""` (negated; node pointers in the index are never nil). -/
def validForRefresh (n : ServiceNode) : Bool :=
  match n.meta with
  | none => false
  | some mt => decide (mt.appId ≠ "")

/-- refreshMethodsLocked (registry/register.go:424-443): clear every method
entry owned by `appId`, then re-add `sm -> appId` for each method of each
node currently stored under `appId`. -/
def refreshMethodsLocked (st : DiscoverState) (appId : String) : DiscoverState :=
  let cleared := st.method.filter (fun p => p.2 ≠ appId)
  let nodes := (alookup appId st.service).getD []
  { st with
    method := nodes.foldl (fun acc n =>
      if validForRefresh n then
        n.methods.foldl (fun a sm => ainsert sm appId a) acc
      else acc) cleared }

/-- upsertNodeLocked (registry/register.go:380-394): drop any node with the
same leaseId, prepend the new node, then rebuild the appId's method slice. -/
def upsertNodeLocked (st : DiscoverState) (appId : String) (newNode : ServiceNode) :
    DiscoverState :=
  let nodes := (alookup appId st.service).getD []
  let kept := nodes.filter (fun n => n.leaseId ≠ newNode.leaseId)
  refreshMethodsLocked
    { st with service := ainsert appId (newNode :: kept) st.service } appId

/-- deleteNodeLocked (registry/register.go:396-422): drop the node with the
matching leaseId, remove the appId entirely when its list becomes empty, then
rebuild the appId's method slice. -/
def deleteNodeLocked (st : DiscoverState) (appId : String) (removedNode : ServiceNode) :
    DiscoverState :=
  let nodes := (alookup appId st.service).getD []
  let kept := nodes.filter (fun n => n.leaseId ≠ removedNode.leaseId)
  let service' :=
    if kept.isEmpty then aerase appId st.service
    else ainsert appId kept st.service
  refreshMethodsLocked { st with service := service' } appId

/-- Event type of an etcd watch event (clientv3.EventTypePut / EventTypeDelete). -/
inductive EventType where
  | put
  | delete
deriving DecidableEq

/-- A key-value carried by a watch event; `value` is the result of
json.Unmarshal on its Value bytes (`none` means the bytes do not parse). -/
structure KeyValue where
  value : Option ServiceNode
deriving DecidableEq

/-- An etcd watch event (clientv3.Event): type plus nilable Kv / PrevKv. -/
structure WatchEvent where
  type : EventType
  kv : Option KeyValue
  prevKv : Option KeyValue
deriving DecidableEq

/-- adapter (registry/register.go:333-378): pick PrevKv.Value for deletes and
Kv.Value for puts, bail out on nil pointers / unmarshal errors / incomplete
meta, then route to upsertNodeLocked or deleteNodeLocked. -/
def adapter (st : DiscoverState) (e : WatchEvent) : DiscoverState :=
  let tv : Option (Option ServiceNode) :=
    match e.type with
    | EventType.delete =>
      match e.prevKv with
      | none => none
      | some pk => some pk.value
    | EventType.put =>
      match e.kv with
      | none => none
      | some kvv => some kvv.value
  match tv with
  | none => st
  | some none => st
  | some (some val) =>
    if validMeta val then
      match e.type with
      | EventType.put => upsertNodeLocked st (metaAppId val) val
      | EventType.delete => deleteNodeLocked st (metaAppId val) val
    else st

/-- Folding a sequence of watch events through the adapter, as the Watcher
loop does (registry/register.go:250-253). -/
def applyEvents (st : DiscoverState) (es : List WatchEvent) : DiscoverState :=
  es.foldl adapter st

/-- The two error values GetService can return
(micro.ErrServiceMethodNotExists / micro.ErrServiceNodeNotExists). -/
inductive DiscoverError where
  | methodNotExists
  | nodeNotExists
deriving DecidableEq

instance {ε α : Type} [DecidableEq ε] [DecidableEq α] : DecidableEq (Except ε α) :=
  fun a b =>
    match a, b with
    | Except.error x, Except.error y =>
      if h : x = y then isTrue (by rw [h])
      else isFalse (fun hh => h (by injection hh))
    | Except.ok x, Except.ok y =>
      if h : x = y then isTrue (by rw [h])
      else isFalse (fun hh => h (by injection hh))
    | Except.error _, Except.ok _ => isFalse (fun hh => by injection hh)
    | Except.ok _, Except.error _ => isFalse (fun hh => by injection hh)

/-- GetService (registry/register.go:150-173, identical in
registry/etcd/discover.go:90-107 and registry/consul/discover.go:106-129):
method -> appId -> node-list double lookup; the returned slice is a copy. -/
def GetService (st : DiscoverState) (sm : String) :
    Except DiscoverError (List ServiceNode) :=
  match alookup sm st.method with
  | none => Except.error DiscoverError.methodNotExists
  | some appId =>
    match alookup appId st.service with
    | none => Except.error DiscoverError.nodeNotExists
    | some nodes => Except.ok nodes

/-- The node a watch event acts on, if any: the payload the adapter parses
and accepts (nil/parse/meta guards folded in). -/
def eventNode (e : WatchEvent) : Option ServiceNode :=
  let tv : Option (Option ServiceNode) :=
    match e.type with
    | EventType.delete =>
      match e.prevKv with
      | none => none
      | some pk => some pk.value
    | EventType.put =>
      match e.kv with
      | none => none
      | some kvv => some kvv.value
  match tv with
  | none => none
  | some none => none
  | some (some val) => if validMeta val then some val else none

theorem adapter_eq_eventNode (st : DiscoverState) (e : WatchEvent) :
    adapter st e =
      match eventNode e with
      | none => st
      | some v =>
        match e.type with
        | EventType.put => upsertNodeLocked st (metaAppId v) v
        | EventType.delete => deleteNodeLocked st (metaAppId v) v := by
  cases e with
  | mk ty kv pkv =>
    cases ty with
    | put =>
      cases kv with
      | none => rfl
      | some k =>
        cases hk : k.value with
        | none => simp [adapter, eventNode, hk]
        | some v =>
          by_cases hv : validMeta v <;> simp [adapter, eventNode, hk, hv]
    | delete =>
      cases pkv with
      | none => rfl
      | some k =>
        cases hk : k.value with
        | none => simp [adapter, eventNode, hk]
        | some v =>
          by_cases hv : validMeta v <;> simp [adapter, eventNode, hk, hv]

/-- Methods contributed to the method index by a node list: union of the
methods of nodes passing the refresh guard, in traversal order. -/
def collectMethods (ns : List ServiceNode) : List String :=
  ns.foldr (fun n acc => (if validForRefresh n then n.methods else []) ++ acc) []

theorem mem_collectMethods (ns : List ServiceNode) (sm : String) :
    sm ∈ collectMethods ns ↔ ∃ n ∈ ns, validForRefresh n = true ∧ sm ∈ n.methods := by
  induction ns with
  | nil => simp [collectMethods]
  | cons n rest ih =>
    simp only [collectMethods, List.foldr_cons, List.mem_append] at *
    constructor
    · rintro (h | h)
      · by_cases hv : validForRefresh n
        · exact ⟨n, List.mem_cons_self n rest, hv, by simpa [hv] using h⟩
        · simp [hv] at h
      · rcases ih.mp h with ⟨m, hm, hvm, hsm⟩
        exact ⟨m, List.mem_cons_of_mem n hm, hvm, hsm⟩
    · rintro ⟨m, hm, hvm, hsm⟩
      rcases List.mem_cons.mp hm with hm | hm
      · subst hm; exact Or.inl (by simp [hvm, hsm])
      · exact Or.inr (ih.mpr ⟨m, hm, hvm, hsm⟩)

theorem alookup_addMethods (ap : String) (ms : List String) (acc : ServiceMethod)
    (sm : String) :
    alookup sm (ms.foldl (fun a m => ainsert m ap a) acc) =
      if sm ∈ ms then some ap else alookup sm acc := by
  induction ms generalizing acc with
  | nil => simp
  | cons m rest ih =>
    rw [List.foldl_cons, ih]
    by_cases h1 : sm ∈ rest
    · simp [h1]
    · by_cases h2 : sm = m
      · subst h2; simp [h1, alookup_ainsert_self]
      · simp [h1, h2, alookup_ainsert_ne sm m ap acc (Ne.symm h2)]

/-- The node-traversal part of refreshMethodsLocked as a fold. -/
def addNodeMethods (ap : String) (acc : ServiceMethod) (ns : List ServiceNode) :
    ServiceMethod :=
  ns.foldl (fun acc n =>
    if validForRefresh n then
      n.methods.foldl (fun a sm => ainsert sm ap a) acc
    else acc) acc

theorem alookup_addNodeMethods (ap : String) (ns : List ServiceNode)
    (acc : ServiceMethod) (sm : String) :
    alookup sm (addNodeMethods ap acc ns) =
      if sm ∈ collectMethods ns then some ap else alookup sm acc := by
  induction ns generalizing acc with
  | nil => simp [addNodeMethods, collectMethods]
  | cons n rest ih =>
    rw [addNodeMethods, List.foldl_cons]
    rw [show (List.foldl (fun acc n =>
      if validForRefresh n then
        n.methods.foldl (fun a sm => ainsert sm ap a) acc
      else acc) _ rest) = addNodeMethods ap _ rest from rfl, ih]
    by_cases h1 : sm ∈ collectMethods rest
    · have : sm ∈ collectMethods (n :: rest) := by
        rw [mem_collectMethods] at h1 ⊢
        rcases h1 with ⟨m, hm, h⟩
        exact ⟨m, List.mem_cons_of_mem n hm, h⟩
      simp [h1, this]
    · by_cases hv : validForRefresh n
      · simp only [hv, if_pos, alookup_addMethods]
        by_cases h2 : sm ∈ n.methods
        · have : sm ∈ collectMethods (n :: rest) :=
            (mem_collectMethods _ _).mpr ⟨n, List.mem_cons_self n rest, hv, h2⟩
          simp [h1, h2, this]
        · have : sm ∉ collectMethods (n :: rest) := by
            intro hc
            rcases (mem_collectMethods _ _).mp hc with ⟨m, hm, hvm, hsm⟩
            rcases List.mem_cons.mp hm with hm | hm
            · subst hm; exact h2 hsm
            · exact h1 ((mem_collectMethods _ _).mpr ⟨m, hm, hvm, hsm⟩)
          simp [h1, h2, this]
      · have hv' : validForRefresh n = false := by simpa using hv
        have : sm ∉ collectMethods (n :: rest) := by
          intro hc
          rcases (mem_collectMethods _ _).mp hc with ⟨m, hm, hvm, hsm⟩
          rcases List.mem_cons.mp hm with hm | hm
          · subst hm; rw [hv'] at hvm; cases hvm
          · exact h1 ((mem_collectMethods _ _).mpr ⟨m, hm, hvm, hsm⟩)
        simp [hv', h1, this]

theorem akeys_nodup_addMethods (ap : String) (ms : List String) (acc : ServiceMethod)
    (h : (akeys acc).Nodup) :
    (akeys (ms.foldl (fun a m => ainsert m ap a) acc)).Nodup := by
  induction ms generalizing acc with
  | nil => exact h
  | cons m rest ih => exact ih _ (akeys_nodup_ainsert m ap acc h)

theorem akeys_nodup_addNodeMethods (ap : String) (ns : List ServiceNode)
    (acc : ServiceMethod) (h : (akeys acc).Nodup) :
    (akeys (addNodeMethods ap acc ns)).Nodup := by
  induction ns generalizing acc with
  | nil => exact h
  | cons n rest ih =>
    rw [addNodeMethods, List.foldl_cons]
    by_cases hv : validForRefresh n
    · simp only [hv, if_pos]
      exact ih _ (akeys_nodup_addMethods ap n.methods acc h)
    · have hv' : validForRefresh n = false := by simpa using hv
      simp only [hv', Bool.false_eq_true, if_false]
      exact ih _ h

theorem refresh_service_eq (st : DiscoverState) (ap : String) :
    (refreshMethodsLocked st ap).service = st.service := rfl

theorem refresh_method_eq (st : DiscoverState) (ap : String) :
    (refreshMethodsLocked st ap).method =
      addNodeMethods ap (st.method.filter (fun p => p.2 ≠ ap))
        ((alookup ap st.service).getD []) := rfl

theorem alookup_refresh_method (st : DiscoverState) (ap sm : String)
    (h : (akeys st.method).Nodup) :
    alookup sm (refreshMethodsLocked st ap).method =
      if sm ∈ collectMethods ((alookup ap st.service).getD []) then some ap
      else (alookup sm st.method).bind (fun b => if b = ap then none else some b) := by
  rw [refresh_method_eq, alookup_addNodeMethods]
  congr 1
  have := alookup_filter_value sm (fun b => b = ap) st.method h
  simpa using this

theorem akeys_nodup_refresh (st : DiscoverState) (ap : String)
    (h : (akeys st.method).Nodup) :
    (akeys (refreshMethodsLocked st ap).method).Nodup := by
  rw [refresh_method_eq]
  exact akeys_nodup_addNodeMethods ap _ _ (akeys_nodup_filter _ _ h)

/-- Well-formedness of the embedded Go maps: association-list keys are
unique (true of every state built by map assignment/deletion). -/
def ServiceWF (st : DiscoverState) : Prop :=
  (akeys st.service).Nodup ∧ (akeys st.method).Nodup

/-- Every stored node list is non-empty and each node carries the meta of
the appId it is filed under (what bootstrap/adapter guarantee). -/
def NodesKeyed (st : DiscoverState) : Prop :=
  ∀ ap ns, alookup ap st.service = some ns →
    ns ≠ [] ∧ ∀ n ∈ ns, metaAppId n = ap ∧ validMeta n = true

/-- Invariant I2: within one appId's node list, leaseIds are pairwise
distinct. -/
def LeaseUnique (st : DiscoverState) : Prop :=
  ∀ ap ns, alookup ap st.service = some ns →
    ns.Pairwise (fun a b => a.leaseId ≠ b.leaseId)

/-- Invariant I1: the method index maps sm to ap exactly when some node
stored under ap serves sm. -/
def MethodConsistent (st : DiscoverState) : Prop :=
  ∀ sm ap, alookup sm st.method = some ap ↔
    ∃ ns, alookup ap st.service = some ns ∧ ∃ n ∈ ns, sm ∈ n.methods

theorem eventNode_valid {e : WatchEvent} {v : ServiceNode}
    (h : eventNode e = some v) : validMeta v = true := by
  cases e with
  | mk ty kv pkv =>
    cases ty with
    | put =>
      cases kv with
      | none => simp [eventNode] at h
      | some k =>
        cases hk : k.value with
        | none => simp [eventNode, hk] at h
        | some w =>
          by_cases hv : validMeta w
          · simp only [eventNode, hk, hv, if_pos] at h
            cases h; exact hv
          · simp [eventNode, hk, hv] at h
    | delete =>
      cases pkv with
      | none => simp [eventNode] at h
      | some k =>
        cases hk : k.value with
        | none => simp [eventNode, hk] at h
        | some w =>
          by_cases hv : validMeta w
          · simp only [eventNode, hk, hv, if_pos] at h
            cases h; exact hv
          · simp [eventNode, hk, hv] at h

theorem validMeta_refresh {n : ServiceNode} (h : validMeta n = true) :
    validForRefresh n = true := by
  unfold validMeta at h
  unfold validForRefresh
  cases hm : n.meta with
  | none => rw [hm] at h; cases h
  | some mt => rw [hm] at h; simp at h; simp [h.1]

theorem validMeta_appId_ne {n : ServiceNode} (h : validMeta n = true) :
    metaAppId n ≠ "" := by
  unfold validMeta at h
  unfold metaAppId
  cases hm : n.meta with
  | none => rw [hm] at h; cases h
  | some mt => rw [hm] at h; simp at h; simp [h.1]

theorem upsert_service_eq (st : DiscoverState) (ap : String) (v : ServiceNode) :
    (upsertNodeLocked st ap v).service =
      ainsert ap
        (v :: ((alookup ap st.service).getD []).filter (fun n => n.leaseId ≠ v.leaseId))
        st.service := rfl

theorem delete_service_eq (st : DiscoverState) (ap : String) (v : ServiceNode) :
    (deleteNodeLocked st ap v).service =
      (let kept := ((alookup ap st.service).getD []).filter
          (fun n => n.leaseId ≠ v.leaseId)
       if kept.isEmpty then aerase ap st.service else ainsert ap kept st.service) := rfl

theorem kept_mem_source (st : DiscoverState) (ap : String) (v : ServiceNode) :
    ∀ n ∈ ((alookup ap st.service).getD []).filter (fun n => n.leaseId ≠ v.leaseId),
      ∃ ns, alookup ap st.service = some ns ∧ n ∈ ns := by
  intro n hn
  cases h0 : alookup ap st.service with
  | none => rw [h0] at hn; simp at hn
  | some ns0 =>
    rw [h0] at hn
    exact ⟨ns0, rfl, List.mem_of_mem_filter hn⟩

theorem kept_pairwise (st : DiscoverState) (ap : String) (v : ServiceNode)
    (hl : LeaseUnique st) :
    (((alookup ap st.service).getD []).filter (fun n => n.leaseId ≠ v.leaseId)).Pairwise
      (fun a b => a.leaseId ≠ b.leaseId) := by
  cases h0 : alookup ap st.service with
  | none => simp
  | some ns0 =>
    simp only [Option.getD_some]
    exact List.Pairwise.sublist (List.filter_sublist ns0) (hl ap ns0 h0)

theorem kept_lease_ne (st : DiscoverState) (ap : String) (v : ServiceNode) :
    ∀ n ∈ ((alookup ap st.service).getD []).filter (fun n => n.leaseId ≠ v.leaseId),
      n.leaseId ≠ v.leaseId := by
  intro n hn
  have := (List.mem_filter.mp hn).2
  simpa using this

theorem upsert_preserves_basic (st : DiscoverState) (ap : String) (v : ServiceNode)
    (hap : metaAppId v = ap) (hv : validMeta v = true)
    (hwf : ServiceWF st) (hk : NodesKeyed st) (hl : LeaseUnique st) :
    ServiceWF (upsertNodeLocked st ap v) ∧ NodesKeyed (upsertNodeLocked st ap v) ∧
      LeaseUnique (upsertNodeLocked st ap v) := by
  have hsvc := upsert_service_eq st ap v
  refine ⟨⟨?_, ?_⟩, ?_, ?_⟩
  · rw [hsvc]; exact akeys_nodup_ainsert ap _ st.service hwf.1
  · exact akeys_nodup_refresh _ ap hwf.2
  · intro ap' ns hns
    rw [hsvc] at hns
    by_cases hap' : ap' = ap
    · subst hap'
      rw [alookup_ainsert_self] at hns
      replace hns := Option.some.inj hns
      subst hns
      refine ⟨by simp, ?_⟩
      intro n hn
      rcases List.mem_cons.mp hn with hn | hn
      · subst hn; exact ⟨hap, hv⟩
      · rcases kept_mem_source st ap' v n hn with ⟨ns0, h0, hmem⟩
        exact (hk ap' ns0 h0).2 n hmem
    · rw [alookup_ainsert_ne ap' ap _ st.service (Ne.symm hap')] at hns
      exact hk ap' ns hns
  · intro ap' ns hns
    rw [hsvc] at hns
    by_cases hap' : ap' = ap
    · subst hap'
      rw [alookup_ainsert_self] at hns
      replace hns := Option.some.inj hns
      subst hns
      refine List.pairwise_cons.mpr ⟨?_, kept_pairwise st ap' v hl⟩
      intro b hb
      exact fun hh => kept_lease_ne st ap' v b hb hh.symm
    · rw [alookup_ainsert_ne ap' ap _ st.service (Ne.symm hap')] at hns
      exact hl ap' ns hns

theorem delete_preserves_basic (st : DiscoverState) (ap : String) (v : ServiceNode)
    (hwf : ServiceWF st) (hk : NodesKeyed st) (hl : LeaseUnique st) :
    ServiceWF (deleteNodeLocked st ap v) ∧ NodesKeyed (deleteNodeLocked st ap v) ∧
      LeaseUnique (deleteNodeLocked st ap v) := by
  have hsvc := delete_service_eq st ap v
  simp only at hsvc
  refine ⟨⟨?_, ?_⟩, ?_, ?_⟩
  · rw [hsvc]
    by_cases he : (((alookup ap st.service).getD []).filter
        (fun n => n.leaseId ≠ v.leaseId)).isEmpty
    · rw [if_pos he]
      exact akeys_nodup_filter _ st.service hwf.1
    · rw [if_neg he]
      exact akeys_nodup_ainsert ap _ st.service hwf.1
  · exact akeys_nodup_refresh _ ap hwf.2
  · intro ap' ns hns
    rw [hsvc] at hns
    by_cases he : (((alookup ap st.service).getD []).filter
        (fun n => n.leaseId ≠ v.leaseId)).isEmpty
    · rw [if_pos he] at hns
      by_cases hap' : ap' = ap
      · subst hap'; rw [alookup_aerase_self] at hns; cases hns
      · rw [alookup_aerase_ne ap' ap st.service (Ne.symm hap')] at hns
        exact hk ap' ns hns
    · rw [if_neg he] at hns
      by_cases hap' : ap' = ap
      · subst hap'
        rw [alookup_ainsert_self] at hns
        replace hns := Option.some.inj hns
        subst hns
        refine ⟨fun hnil => he (by rw [hnil]; rfl), ?_⟩
        intro n hn
        rcases kept_mem_source st ap' v n hn with ⟨ns0, h0, hmem⟩
        exact (hk ap' ns0 h0).2 n hmem
      · rw [alookup_ainsert_ne ap' ap _ st.service (Ne.symm hap')] at hns
        exact hk ap' ns hns
  · intro ap' ns hns
    rw [hsvc] at hns
    by_cases he : (((alookup ap st.service).getD []).filter
        (fun n => n.leaseId ≠ v.leaseId)).isEmpty
    · rw [if_pos he] at hns
      by_cases hap' : ap' = ap
      · subst hap'; rw [alookup_aerase_self] at hns; cases hns
      · rw [alookup_aerase_ne ap' ap st.service (Ne.symm hap')] at hns
        exact hl ap' ns hns
    · rw [if_neg he] at hns
      by_cases hap' : ap' = ap
      · subst hap'
        rw [alookup_ainsert_self] at hns
        replace hns := Option.some.inj hns
        subst hns
        exact kept_pairwise st ap' v hl
      · rw [alookup_ainsert_ne ap' ap _ st.service (Ne.symm hap')] at hns
        exact hl ap' ns hns

theorem adapter_preserves_basic (st : DiscoverState) (e : WatchEvent)
    (hwf : ServiceWF st) (hk : NodesKeyed st) (hl : LeaseUnique st) :
    ServiceWF (adapter st e) ∧ NodesKeyed (adapter st e) ∧ LeaseUnique (adapter st e) := by
  rw [adapter_eq_eventNode]
  cases hev : eventNode e with
  | none => exact ⟨hwf, hk, hl⟩
  | some v =>
    have hv := eventNode_valid hev
    cases e.type with
    | put => exact upsert_preserves_basic st (metaAppId v) v rfl hv hwf hk hl
    | delete => exact delete_preserves_basic st (metaAppId v) v hwf hk hl

/-- Cross-appId disjointness of served methods: no method is served by nodes
stored under two different appIds. -/
def CrossDisjoint (st : DiscoverState) : Prop :=
  ∀ a b nsa nsb na nb, a ≠ b → alookup a st.service = some nsa →
    alookup b st.service = some nsb → na ∈ nsa → nb ∈ nsb →
    ∀ sm ∈ na.methods, sm ∉ nb.methods

theorem mem_collect_of_all_valid (ns : List ServiceNode)
    (h : ∀ n ∈ ns, validForRefresh n = true) (sm : String) :
    sm ∈ collectMethods ns ↔ ∃ n ∈ ns, sm ∈ n.methods := by
  rw [mem_collectMethods]
  constructor
  · rintro ⟨n, hn, _, hsm⟩; exact ⟨n, hn, hsm⟩
  · rintro ⟨n, hn, hsm⟩; exact ⟨n, hn, h n hn, hsm⟩

theorem upsert_method_consistent (st : DiscoverState) (ap : String) (v : ServiceNode)
    (hap : metaAppId v = ap) (hv : validMeta v = true)
    (hwf : ServiceWF st) (hk : NodesKeyed st) (hmc : MethodConsistent st)
    (hvd : ∀ b ns n, b ≠ ap → alookup b st.service = some ns → n ∈ ns →
      ∀ sm ∈ v.methods, sm ∉ n.methods)
    (hcd : CrossDisjoint st) :
    MethodConsistent (upsertNodeLocked st ap v) := by
  intro sm b
  have hsvc := upsert_service_eq st ap v
  set kept := ((alookup ap st.service).getD []).filter
    (fun n => n.leaseId ≠ v.leaseId) with hkeptdef
  have hkeptsrc := kept_mem_source st ap v
  have hmeth : alookup sm (upsertNodeLocked st ap v).method =
      if sm ∈ collectMethods (v :: kept) then some ap
      else (alookup sm st.method).bind (fun c => if c = ap then none else some c) := by
    have := alookup_refresh_method
      { st with service := ainsert ap (v :: kept) st.service } ap sm hwf.2
    rw [show (upsertNodeLocked st ap v).method =
      (refreshMethodsLocked { st with service := ainsert ap (v :: kept) st.service }
        ap).method from rfl, this]
    simp [alookup_ainsert_self]
  have hvalid : ∀ n ∈ v :: kept, validForRefresh n = true := by
    intro n hn
    rcases List.mem_cons.mp hn with hn | hn
    · subst hn; exact validMeta_refresh hv
    · rcases hkeptsrc n hn with ⟨ns0, h0, hmem⟩
      exact validMeta_refresh ((hk ap ns0 h0).2 n hmem).2
  have hcoll := mem_collect_of_all_valid (v :: kept) hvalid sm
  rw [hmeth]
  by_cases hc : sm ∈ collectMethods (v :: kept)
  · rw [if_pos hc]
    constructor
    · intro hb
      replace hb := Option.some.inj hb
      subst hb
      refine ⟨v :: kept, by rw [hsvc, alookup_ainsert_self], ?_⟩
      exact hcoll.mp hc
    · rintro ⟨ns, hns, n, hn, hsm⟩
      by_cases hb : b = ap
      · subst hb; rfl
      · exfalso
        rw [hsvc, alookup_ainsert_ne b ap _ st.service (Ne.symm hb)] at hns
        rcases hcoll.mp hc with ⟨m, hm, hsm'⟩
        rcases List.mem_cons.mp hm with hm | hm
        · subst hm; exact hvd b ns n hb hns hn sm hsm' hsm
        · rcases hkeptsrc m hm with ⟨ns0, h0, hmem⟩
          exact hcd ap b ns0 ns m n (fun hh => hb hh.symm) h0 hns hmem hn sm hsm' hsm
  · rw [if_neg hc]
    cases halo : alookup sm st.method with
    | none =>
      simp only [Option.bind]
      constructor
      · intro hb; cases hb
      · rintro ⟨ns, hns, n, hn, hsm⟩
        exfalso
        by_cases hb : b = ap
        · subst hb
          rw [hsvc, alookup_ainsert_self] at hns
          replace hns := Option.some.inj hns
          subst hns
          exact hc (hcoll.mpr ⟨n, hn, hsm⟩)
        · rw [hsvc, alookup_ainsert_ne b ap _ st.service (Ne.symm hb)] at hns
          have := (hmc sm b).mpr ⟨ns, hns, n, hn, hsm⟩
          rw [halo] at this; cases this
    | some c =>
      simp only [Option.bind]
      by_cases hcap : c = ap
      · subst hcap
        rw [if_pos rfl]
        constructor
        · intro hb; cases hb
        · rintro ⟨ns, hns, n, hn, hsm⟩
          exfalso
          by_cases hb : b = c
          · subst hb
            rw [hsvc, alookup_ainsert_self] at hns
            replace hns := Option.some.inj hns
            subst hns
            exact hc (hcoll.mpr ⟨n, hn, hsm⟩)
          · rw [hsvc, alookup_ainsert_ne b c _ st.service (Ne.symm hb)] at hns
            have := (hmc sm b).mpr ⟨ns, hns, n, hn, hsm⟩
            rw [halo] at this
            exact hb (Option.some.inj this).symm
      · rw [if_neg hcap]
        constructor
        · intro hb
          replace hb := Option.some.inj hb
          subst hb
          rcases (hmc sm c).mp halo with ⟨ns, hns, n, hn, hsm⟩
          refine ⟨ns, ?_, n, hn, hsm⟩
          rw [hsvc, alookup_ainsert_ne c ap _ st.service (Ne.symm hcap)]
          exact hns
        · rintro ⟨ns, hns, n, hn, hsm⟩
          by_cases hb : b = ap
          · exfalso
            subst hb
            rw [hsvc, alookup_ainsert_self] at hns
            replace hns := Option.some.inj hns
            subst hns
            exact hc (hcoll.mpr ⟨n, hn, hsm⟩)
          · rw [hsvc, alookup_ainsert_ne b ap _ st.service (Ne.symm hb)] at hns
            have := (hmc sm b).mpr ⟨ns, hns, n, hn, hsm⟩
            rw [halo] at this
            rw [Option.some.inj this]

theorem delete_method_consistent (st : DiscoverState) (ap : String) (v : ServiceNode)
    (hwf : ServiceWF st) (hk : NodesKeyed st) (hmc : MethodConsistent st)
    (hcd : CrossDisjoint st) :
    MethodConsistent (deleteNodeLocked st ap v) := by
  intro sm b
  have hsvc := delete_service_eq st ap v
  simp only at hsvc
  set kept := ((alookup ap st.service).getD []).filter
    (fun n => n.leaseId ≠ v.leaseId) with hkeptdef
  have hkeptsrc := kept_mem_source st ap v
  by_cases he : kept.isEmpty
  · rw [if_pos he] at hsvc
    have hmeth : alookup sm (deleteNodeLocked st ap v).method =
        (alookup sm st.method).bind (fun c => if c = ap then none else some c) := by
      have := alookup_refresh_method
        { st with service := aerase ap st.service } ap sm hwf.2
      rw [show (deleteNodeLocked st ap v).method =
        (refreshMethodsLocked { st with service :=
          (if kept.isEmpty then aerase ap st.service
           else ainsert ap kept st.service) } ap).method from rfl]
      rw [if_pos he]
      rw [this]
      simp [alookup_aerase_self, collectMethods]
    rw [hmeth]
    cases halo : alookup sm st.method with
    | none =>
      simp only [Option.bind]
      constructor
      · intro hb; cases hb
      · rintro ⟨ns, hns, n, hn, hsm⟩
        exfalso
        rw [hsvc] at hns
        by_cases hb : b = ap
        · subst hb; rw [alookup_aerase_self] at hns; cases hns
        · rw [alookup_aerase_ne b ap st.service (Ne.symm hb)] at hns
          have := (hmc sm b).mpr ⟨ns, hns, n, hn, hsm⟩
          rw [halo] at this; cases this
    | some c =>
      simp only [Option.bind]
      by_cases hcap : c = ap
      · subst hcap
        rw [if_pos rfl]
        constructor
        · intro hb; cases hb
        · rintro ⟨ns, hns, n, hn, hsm⟩
          exfalso
          rw [hsvc] at hns
          by_cases hb : b = c
          · subst hb; rw [alookup_aerase_self] at hns; cases hns
          · rw [alookup_aerase_ne b c st.service (Ne.symm hb)] at hns
            have := (hmc sm b).mpr ⟨ns, hns, n, hn, hsm⟩
            rw [halo] at this
            exact hb (Option.some.inj this).symm
      · rw [if_neg hcap]
        constructor
        · intro hb
          replace hb := Option.some.inj hb
          subst hb
          rcases (hmc sm c).mp halo with ⟨ns, hns, n, hn, hsm⟩
          refine ⟨ns, ?_, n, hn, hsm⟩
          rw [hsvc, alookup_aerase_ne c ap st.service (Ne.symm hcap)]
          exact hns
        · rintro ⟨ns, hns, n, hn, hsm⟩
          rw [hsvc] at hns
          by_cases hb : b = ap
          · exfalso
            subst hb
            rw [alookup_aerase_self] at hns; cases hns
          · rw [alookup_aerase_ne b ap st.service (Ne.symm hb)] at hns
            have := (hmc sm b).mpr ⟨ns, hns, n, hn, hsm⟩
            rw [halo] at this
            rw [Option.some.inj this]
  · rw [if_neg he] at hsvc
    have hvalid : ∀ n ∈ kept, validForRefresh n = true := by
      intro n hn
      rcases hkeptsrc n hn with ⟨ns0, h0, hmem⟩
      exact validMeta_refresh ((hk ap ns0 h0).2 n hmem).2
    have hcoll := mem_collect_of_all_valid kept hvalid sm
    have hmeth : alookup sm (deleteNodeLocked st ap v).method =
        if sm ∈ collectMethods kept then some ap
        else (alookup sm st.method).bind (fun c => if c = ap then none else some c) := by
      have := alookup_refresh_method
        { st with service := ainsert ap kept st.service } ap sm hwf.2
      rw [show (deleteNodeLocked st ap v).method =
        (refreshMethodsLocked { st with service :=
          (if kept.isEmpty then aerase ap st.service
           else ainsert ap kept st.service) } ap).method from rfl]
      rw [if_neg he]
      rw [this]
      simp [alookup_ainsert_self]
    rw [hmeth]
    by_cases hc : sm ∈ collectMethods kept
    · rw [if_pos hc]
      constructor
      · intro hb
        replace hb := Option.some.inj hb
        subst hb
        refine ⟨kept, by rw [hsvc, alookup_ainsert_self], ?_⟩
        exact hcoll.mp hc
      · rintro ⟨ns, hns, n, hn, hsm⟩
        by_cases hb : b = ap
        · subst hb; rfl
        · exfalso
          rw [hsvc, alookup_ainsert_ne b ap _ st.service (Ne.symm hb)] at hns
          rcases hcoll.mp hc with ⟨m, hm, hsm'⟩
          rcases hkeptsrc m hm with ⟨ns0, h0, hmem⟩
          exact hcd ap b ns0 ns m n (fun hh => hb hh.symm) h0 hns hmem hn sm hsm' hsm
    · rw [if_neg hc]
      cases halo : alookup sm st.method with
      | none =>
        simp only [Option.bind]
        constructor
        · intro hb; cases hb
        · rintro ⟨ns, hns, n, hn, hsm⟩
          exfalso
          rw [hsvc] at hns
          by_cases hb : b = ap
          · subst hb
            rw [alookup_ainsert_self] at hns
            replace hns := Option.some.inj hns
            subst hns
            exact hc (hcoll.mpr ⟨n, hn, hsm⟩)
          · rw [alookup_ainsert_ne b ap _ st.service (Ne.symm hb)] at hns
            have := (hmc sm b).mpr ⟨ns, hns, n, hn, hsm⟩
            rw [halo] at this; cases this
      | some c =>
        simp only [Option.bind]
        by_cases hcap : c = ap
        · subst hcap
          rw [if_pos rfl]
          constructor
          · intro hb; cases hb
          · rintro ⟨ns, hns, n, hn, hsm⟩
            exfalso
            rw [hsvc] at hns
            by_cases hb : b = c
            · subst hb
              rw [alookup_ainsert_self] at hns
              replace hns := Option.some.inj hns
              subst hns
              exact hc (hcoll.mpr ⟨n, hn, hsm⟩)
            · rw [alookup_ainsert_ne b c _ st.service (Ne.symm hb)] at hns
              have := (hmc sm b).mpr ⟨ns, hns, n, hn, hsm⟩
              rw [halo] at this
              exact hb (Option.some.inj this).symm
        · rw [if_neg hcap]
          constructor
          · intro hb
            replace hb := Option.some.inj hb
            subst hb
            rcases (hmc sm c).mp halo with ⟨ns, hns, n, hn, hsm⟩
            refine ⟨ns, ?_, n, hn, hsm⟩
            rw [hsvc, alookup_ainsert_ne c ap _ st.service (Ne.symm hcap)]
            exact hns
          · rintro ⟨ns, hns, n, hn, hsm⟩
            rw [hsvc] at hns
            by_cases hb : b = ap
            · exfalso
              subst hb
              rw [alookup_ainsert_self] at hns
              replace hns := Option.some.inj hns
              subst hns
              exact hc (hcoll.mpr ⟨n, hn, hsm⟩)
            · rw [alookup_ainsert_ne b ap _ st.service (Ne.symm hb)] at hns
              have := (hmc sm b).mpr ⟨ns, hns, n, hn, hsm⟩
              rw [halo] at this
              rw [Option.some.inj this]

/-- Every node stored in the cache is the accepted payload of some event of
the replayed sequence. -/
def NodesFromEvents (st : DiscoverState) (es : List WatchEvent) : Prop :=
  ∀ ap ns n, alookup ap st.service = some ns → n ∈ ns →
    ∃ e ∈ es, eventNode e = some n

/-- Any two event payloads belonging to different appIds announce disjoint
method sets (each fully-qualified method name is owned by one service). -/
def eventsDisjoint (es : List WatchEvent) : Bool :=
  es.all (fun e1 => es.all (fun e2 =>
    match eventNode e1, eventNode e2 with
    | some v1, some v2 =>
      (metaAppId v1 == metaAppId v2) ||
        v1.methods.all (fun sm => !(v2.methods.contains sm))
    | _, _ => true))

theorem eventsDisjoint_spec {es : List WatchEvent} (h : eventsDisjoint es = true) :
    ∀ e1 ∈ es, ∀ e2 ∈ es, ∀ v1 v2, eventNode e1 = some v1 → eventNode e2 = some v2 →
      metaAppId v1 ≠ metaAppId v2 → ∀ sm ∈ v1.methods, sm ∉ v2.methods := by
  intro e1 he1 e2 he2 v1 v2 hv1 hv2 hne sm hsm hsm2
  rw [eventsDisjoint] at h
  have h1 := List.all_eq_true.mp h e1 he1
  have h2 := List.all_eq_true.mp h1 e2 he2
  rw [hv1, hv2] at h2
  rcases (Bool.or_eq_true _ _).mp h2 with h3 | h3
  · exact hne (by simpa using h3)
  · have := List.all_eq_true.mp h3 sm hsm
    simp at this
    exact this hsm2

theorem crossDisjoint_of (st : DiscoverState) (es : List WatchEvent)
    (hk : NodesKeyed st) (hnf : NodesFromEvents st es)
    (hd : eventsDisjoint es = true) : CrossDisjoint st := by
  intro a b nsa nsb na nb hab ha hb hna hnb sm hsm hsm2
  rcases hnf a nsa na ha hna with ⟨e1, he1, hev1⟩
  rcases hnf b nsb nb hb hnb with ⟨e2, he2, hev2⟩
  have h1 : metaAppId na = a := ((hk a nsa ha).2 na hna).1
  have h2 : metaAppId nb = b := ((hk b nsb hb).2 nb hnb).1
  exact eventsDisjoint_spec hd e1 he1 e2 he2 na nb hev1 hev2
    (by rw [h1, h2]; exact hab) sm hsm hsm2

theorem newNode_disjoint (st : DiscoverState) (es : List WatchEvent)
    (e : WatchEvent) (v : ServiceNode) (he : e ∈ es) (hev : eventNode e = some v)
    (hk : NodesKeyed st) (hnf : NodesFromEvents st es)
    (hd : eventsDisjoint es = true) :
    ∀ b ns n, b ≠ metaAppId v → alookup b st.service = some ns → n ∈ ns →
      ∀ sm ∈ v.methods, sm ∉ n.methods := by
  intro b ns n hb hns hn sm hsm hsm2
  rcases hnf b ns n hns hn with ⟨e2, he2, hev2⟩
  have h2 : metaAppId n = b := ((hk b ns hns).2 n hn).1
  exact eventsDisjoint_spec hd e he e2 he2 v n hev hev2
    (by rw [h2]; exact fun hh => hb hh.symm) sm hsm hsm2

theorem upsert_nodes_from (st : DiscoverState) (es : List WatchEvent) (ap : String)
    (v : ServiceNode) (e : WatchEvent) (he : e ∈ es) (hev : eventNode e = some v)
    (hnf : NodesFromEvents st es) : NodesFromEvents (upsertNodeLocked st ap v) es := by
  intro ap' ns n hns hn
  rw [upsert_service_eq] at hns
  by_cases hap' : ap' = ap
  · subst hap'
    rw [alookup_ainsert_self] at hns
    replace hns := Option.some.inj hns
    subst hns
    rcases List.mem_cons.mp hn with hn | hn
    · subst hn; exact ⟨e, he, hev⟩
    · rcases kept_mem_source st ap' v n hn with ⟨ns0, h0, hmem⟩
      exact hnf ap' ns0 n h0 hmem
  · rw [alookup_ainsert_ne ap' ap _ st.service (Ne.symm hap')] at hns
    exact hnf ap' ns n hns hn

theorem delete_nodes_from (st : DiscoverState) (es : List WatchEvent) (ap : String)
    (v : ServiceNode) (hnf : NodesFromEvents st es) :
    NodesFromEvents (deleteNodeLocked st ap v) es := by
  intro ap' ns n hns hn
  have hsvc := delete_service_eq st ap v
  simp only at hsvc
  rw [hsvc] at hns
  by_cases he : (((alookup ap st.service).getD []).filter
      (fun n => n.leaseId ≠ v.leaseId)).isEmpty
  · rw [if_pos he] at hns
    by_cases hap' : ap' = ap
    · subst hap'; rw [alookup_aerase_self] at hns; cases hns
    · rw [alookup_aerase_ne ap' ap st.service (Ne.symm hap')] at hns
      exact hnf ap' ns n hns hn
  · rw [if_neg he] at hns
    by_cases hap' : ap' = ap
    · subst hap'
      rw [alookup_ainsert_self] at hns
      replace hns := Option.some.inj hns
      subst hns
      rcases kept_mem_source st ap' v n hn with ⟨ns0, h0, hmem⟩
      exact hnf ap' ns0 n h0 hmem
    · rw [alookup_ainsert_ne ap' ap _ st.service (Ne.symm hap')] at hns
      exact hnf ap' ns n hns hn

/-- The inductive invariant maintained while a Discovery Cache replays a
sequence of watch events. -/
def CacheInv (st : DiscoverState) (es : List WatchEvent) : Prop :=
  ServiceWF st ∧ NodesKeyed st ∧ LeaseUnique st ∧ MethodConsistent st ∧
    NodesFromEvents st es

theorem adapter_preserves_inv (st : DiscoverState) (es : List WatchEvent)
    (e : WatchEvent) (he : e ∈ es) (hd : eventsDisjoint es = true)
    (h : CacheInv st es) : CacheInv (adapter st e) es := by
  obtain ⟨hwf, hk, hl, hmc, hnf⟩ := h
  rw [adapter_eq_eventNode]
  cases hev : eventNode e with
  | none => exact ⟨hwf, hk, hl, hmc, hnf⟩
  | some v =>
    have hv := eventNode_valid hev
    have hcd := crossDisjoint_of st es hk hnf hd
    cases e.type with
    | put =>
      rcases upsert_preserves_basic st (metaAppId v) v rfl hv hwf hk hl with
        ⟨hwf', hk', hl'⟩
      refine ⟨hwf', hk', hl', ?_, ?_⟩
      · exact upsert_method_consistent st (metaAppId v) v rfl hv hwf hk hmc
          (newNode_disjoint st es e v he hev hk hnf hd) hcd
      · exact upsert_nodes_from st es (metaAppId v) v e he hev hnf
    | delete =>
      rcases delete_preserves_basic st (metaAppId v) v hwf hk hl with
        ⟨hwf', hk', hl'⟩
      exact ⟨hwf', hk', hl',
        delete_method_consistent st (metaAppId v) v hwf hk hmc hcd,
        delete_nodes_from st es (metaAppId v) v hnf⟩

theorem applyEvents_preserves_inv (es0 : List WatchEvent)
    (hd : eventsDisjoint es0 = true) :
    ∀ es st, (∀ e ∈ es, e ∈ es0) → CacheInv st es0 →
      CacheInv (applyEvents st es) es0 := by
  intro es
  induction es with
  | nil => intro st _ h; exact h
  | cons e rest ih =>
    intro st hsub h
    rw [applyEvents, List.foldl_cons]
    exact ih (adapter st e) (fun x hx => hsub x (List.mem_cons_of_mem e hx))
      (adapter_preserves_inv st es0 e (hsub e (List.mem_cons_self e rest)) hd h)

theorem emptyState_inv (es0 : List WatchEvent) : CacheInv emptyState es0 := by
  refine ⟨⟨List.nodup_nil, List.nodup_nil⟩, ?_, ?_, ?_, ?_⟩
  · intro ap ns h; cases h
  · intro ap ns h; cases h
  · intro sm ap
    constructor
    · intro h; cases h
    · rintro ⟨ns, hns, _⟩; cases hns
  · intro ap ns n h; cases h

/-- Outcome of one iteration of the lease-retry loop
(registry/etcd/register.go retryLease; registry/consul/register.go
retryHeartbeat has the same shape with `register()` as its single fallible
call).  `cancelled` is ctx.Done firing during the backoff wait, `grantFail`
a failed re-Grant, `putFail` a failed re-registration write. -/
inductive RetryOutcome where
  | cancelled
  | grantFail
  | putFail
  | success
deriving DecidableEq

/-- What a run of the retry helper produces: its boolean return value, the
final retryCount, and how often the retryBefore/retryAfter hooks fired. -/
structure RetryResult where
  ok : Bool
  count : Nat
  befores : Nat
  afters : Nat
deriving DecidableEq

/-- The loop body of retryLease (registry/etcd/register.go:214-273), with
the guard `retryCount < MaxRetry` expressed through the fuel
`maxRetry - count` (each non-cancelled iteration increments the counter, so
the fuel decreases by one exactly when the Go loop re-tests its guard).
The hookBefore fires at the top of each iteration; on success the counter is
zeroed and hookAfter fires; on failure the loop continues. -/
def retryLeaseAux (att : Nat → RetryOutcome) : Nat → Nat → Nat → RetryResult
  | 0, count, _ => ⟨false, count, 0, 0⟩
  | fuel+1, count, i =>
    match att i with
    | RetryOutcome.cancelled => ⟨false, count, 1, 0⟩
    | RetryOutcome.success => ⟨true, 0, 1, 1⟩
    | RetryOutcome.grantFail =>
      let r := retryLeaseAux att fuel (count+1) (i+1)
      ⟨r.ok, r.count, r.befores + 1, r.afters⟩
    | RetryOutcome.putFail =>
      let r := retryLeaseAux att fuel (count+1) (i+1)
      ⟨r.ok, r.count, r.befores + 1, r.afters⟩

/-- retryLease (registry/etcd/register.go:214-273) run from the current
retryCount with attempt outcomes given by `att`. -/
def retryLease (maxRetry count : Nat) (att : Nat → RetryOutcome) : RetryResult :=
  retryLeaseAux att (maxRetry - count) count 0

/-- One observable event of the SustainLease loop: a successful renewal
acknowledgement (a KeepAlive response / successful UpdateTTL), or loss of
the renewal channel which triggers the retry helper with outcomes `att`. -/
inductive SessionEvent where
  | ack
  | lost (att : Nat → RetryOutcome)

/-- Net effect of a SustainLease run: final retryCount, hook-fire counts and
whether the loop exited by abandoning the session (retry helper returned
false).  The Go function returns no error value in either case. -/
structure SessionResult where
  count : Nat
  befores : Nat
  afters : Nat
  abandoned : Bool
deriving DecidableEq

/-- SustainLease (registry/etcd/register.go:167-212, and the same event loop
in registry/consul/register.go:143-166): acknowledgements reset the counter,
channel loss runs the retry helper; a false return exits the loop at once,
ignoring everything after it. -/
def sustainLease (maxRetry : Nat) : Nat → List SessionEvent → SessionResult
  | count, [] => ⟨count, 0, 0, false⟩
  | _, SessionEvent.ack :: rest => sustainLease maxRetry 0 rest
  | count, SessionEvent.lost att :: rest =>
    let r := retryLease maxRetry count att
    if r.ok then
      let k := sustainLease maxRetry r.count rest
      ⟨k.count, r.befores + k.befores, r.afters + k.afters, k.abandoned⟩
    else ⟨r.count, r.befores, r.afters, true⟩

theorem retryLeaseAux_all_fail (att : Nat → RetryOutcome)
    (hf : ∀ i, att i = RetryOutcome.grantFail ∨ att i = RetryOutcome.putFail) :
    ∀ fuel count i, retryLeaseAux att fuel count i =
      ⟨false, count + fuel, fuel, 0⟩ := by
  intro fuel
  induction fuel with
  | zero => intro count i; rfl
  | succ fuel ih =>
    intro count i
    rcases hf i with h | h <;>
      simp [retryLeaseAux, h, ih (count + 1) (i + 1)] <;> omega

theorem retryLeaseAux_ok_count (att : Nat → RetryOutcome) :
    ∀ fuel count i, (retryLeaseAux att fuel count i).ok = true →
      (retryLeaseAux att fuel count i).count = 0 := by
  intro fuel
  induction fuel with
  | zero => intro count i h; cases h
  | succ fuel ih =>
    intro count i
    cases h : att i <;> simp [retryLeaseAux, h]
    · exact ih (count + 1) (i + 1)
    · exact ih (count + 1) (i + 1)

/-- A timestamp in the Go `time.DateTime` layout `2006-01-02 15:04:05`. -/
structure DateTime where
  year : Nat
  month : Nat
  day : Nat
  hour : Nat
  minute : Nat
  second : Nat
deriving DecidableEq

/-- Value of an ASCII digit character (Go time parsing accepts exactly
the bytes 0-9 in each numeric position of a fixed-width layout). -/
def digitVal (c : Char) : Option Nat :=
  if 48 ≤ c.toNat ∧ c.toNat ≤ 57 then some (c.toNat - 48) else none

/-- Gregorian leap-year rule, as in Go's time package. -/
def isLeapYear (y : Nat) : Bool :=
  (y % 4 == 0 && !(y % 100 == 0)) || y % 400 == 0

/-- Length of a month, used by Go's date validation ("day out of range"). -/
def daysInMonth (y m : Nat) : Nat :=
  if m = 2 then (if isLeapYear y then 29 else 28)
  else if m = 4 ∨ m = 6 ∨ m = 9 ∨ m = 11 then 30
  else 31

/-- Read a fixed two-digit number, returning the remaining characters. -/
def parseTwo : List Char → Option (Nat × List Char)
  | c1 :: c2 :: rest =>
    (match digitVal c1, digitVal c2 with
     | some a, some b => some (a * 10 + b, rest)
     | _, _ => none)
  | _ => none

/-- Read a fixed four-digit number, returning the remaining characters. -/
def parseFour : List Char → Option (Nat × List Char)
  | c1 :: c2 :: c3 :: c4 :: rest =>
    (match digitVal c1, digitVal c2, digitVal c3, digitVal c4 with
     | some a, some b, some c, some d => some (a * 1000 + b * 100 + c * 10 + d, rest)
     | _, _, _, _ => none)
  | _ => none

/-- Consume one expected separator character. -/
def expectChar (c : Char) : List Char → Option (List Char)
  | x :: rest => if x = c then some rest else none
  | _ => none

/-- Parse the fixed-width layout `yyyy-mm-dd hh:mm:ss` with Go's range
validation (month 1-12, day 1..daysInMonth, hour < 24, minute/second < 60,
whole input consumed); any other shape fails, as time.ParseInLocation does. -/
def parseDateTimeList (l : List Char) : Option DateTime :=
  match parseFour l with
  | none => none
  | some (y, l1) =>
    match expectChar '-' l1 with
    | none => none
    | some l2 =>
      match parseTwo l2 with
      | none => none
      | some (mo, l3) =>
        match expectChar '-' l3 with
        | none => none
        | some l4 =>
          match parseTwo l4 with
          | none => none
          | some (d, l5) =>
            match expectChar ' ' l5 with
            | none => none
            | some l6 =>
              match parseTwo l6 with
              | none => none
              | some (h, l7) =>
                match expectChar ':' l7 with
                | none => none
                | some l8 =>
                  match parseTwo l8 with
                  | none => none
                  | some (mi, l9) =>
                    match expectChar ':' l9 with
                    | none => none
                    | some l10 =>
                      match parseTwo l10 with
                      | none => none
                      | some (sec, l11) =>
                        if l11 = [] ∧ 1 ≤ mo ∧ mo ≤ 12 ∧ 1 ≤ d ∧
                            d ≤ daysInMonth y mo ∧ h ≤ 23 ∧ mi ≤ 59 ∧ sec ≤ 59
                        then some ⟨y, mo, d, h, mi, sec⟩
                        else none

/-- time.ParseInLocation(time.DateTime, s, time.Local) as used by the
kubernetes rebuild; local-zone handling is irrelevant since every value is
parsed and compared in the same zone. -/
def parseDateTime (s : String) : Option DateTime :=
  parseDateTimeList s.data

/-- Two-digit zero-padded rendering (helper for the round-trip argument). -/
def twoChars (n : Nat) : List Char :=
  [Char.ofNat (48 + n / 10), Char.ofNat (48 + n % 10)]

/-- Four-digit zero-padded rendering (helper for the round-trip argument). -/
def fourChars (n : Nat) : List Char :=
  [Char.ofNat (48 + n / 1000), Char.ofNat (48 + n / 100 % 10),
   Char.ofNat (48 + n / 10 % 10), Char.ofNat (48 + n % 10)]

/-- The unique character list a DateTime parses from. -/
def printChars (d : DateTime) : List Char :=
  fourChars d.year ++ ('-' :: (twoChars d.month ++ ('-' :: (twoChars d.day ++
    (' ' :: (twoChars d.hour ++ (':' :: (twoChars d.minute ++
    (':' :: twoChars d.second)))))))))

/-- Field ranges guaranteed by a successful parse. -/
def dtBounds (d : DateTime) : Prop :=
  1 ≤ d.month ∧ d.month ≤ 12 ∧ 1 ≤ d.day ∧ d.day ≤ daysInMonth d.year d.month ∧
  d.hour ≤ 23 ∧ d.minute ≤ 59 ∧ d.second ≤ 59 ∧ d.year ≤ 9999

theorem digitVal_eq_some {c : Char} {a : Nat} (h : digitVal c = some a) :
    c = Char.ofNat (48 + a) ∧ a ≤ 9 := by
  unfold digitVal at h
  split at h
  · rename_i hc
    injection h with h
    subst h
    refine ⟨?_, by omega⟩
    have he : 48 + (c.toNat - 48) = c.toNat := by omega
    rw [he, Char.ofNat_toNat]
  · cases h

theorem parseTwo_inv {l : List Char} {n : Nat} {rest : List Char}
    (h : parseTwo l = some (n, rest)) : l = twoChars n ++ rest ∧ n ≤ 99 := by
  rcases l with _ | ⟨c1, _ | ⟨c2, tl⟩⟩
  · cases h
  · cases h
  · replace h : (match digitVal c1, digitVal c2 with
      | some a, some b => some (a * 10 + b, tl)
      | _, _ => none) = some (n, rest) := h
    split at h
    · rename_i a b h1 h2
      obtain ⟨hc1, ha⟩ := digitVal_eq_some h1
      obtain ⟨hc2, hb⟩ := digitVal_eq_some h2
      replace h := Option.some.inj h
      have hn : a * 10 + b = n := congrArg Prod.fst h
      have ht : tl = rest := congrArg Prod.snd h
      subst hn; subst ht; subst hc1; subst hc2
      refine ⟨?_, by omega⟩
      have q1 : (a * 10 + b) / 10 = a := by omega
      have q2 : (a * 10 + b) % 10 = b := by omega
      simp [twoChars, q1, q2]
    · cases h

theorem parseFour_inv {l : List Char} {n : Nat} {rest : List Char}
    (h : parseFour l = some (n, rest)) : l = fourChars n ++ rest ∧ n ≤ 9999 := by
  rcases l with _ | ⟨c1, _ | ⟨c2, _ | ⟨c3, _ | ⟨c4, tl⟩⟩⟩⟩
  · cases h
  · cases h
  · cases h
  · cases h
  · replace h : (match digitVal c1, digitVal c2, digitVal c3, digitVal c4 with
      | some a, some b, some c, some d =>
        some (a * 1000 + b * 100 + c * 10 + d, tl)
      | _, _, _, _ => none) = some (n, rest) := h
    split at h
    · rename_i a b c d h1 h2 h3 h4
      obtain ⟨hc1, ha⟩ := digitVal_eq_some h1
      obtain ⟨hc2, hb⟩ := digitVal_eq_some h2
      obtain ⟨hc3, hc⟩ := digitVal_eq_some h3
      obtain ⟨hc4, hd⟩ := digitVal_eq_some h4
      replace h := Option.some.inj h
      have hn : a * 1000 + b * 100 + c * 10 + d = n := congrArg Prod.fst h
      have ht : tl = rest := congrArg Prod.snd h
      subst hn; subst ht; subst hc1; subst hc2; subst hc3; subst hc4
      refine ⟨?_, by omega⟩
      have q1 : (a * 1000 + b * 100 + c * 10 + d) / 1000 = a := by omega
      have q2 : (a * 1000 + b * 100 + c * 10 + d) / 100 % 10 = b := by omega
      have q3 : (a * 1000 + b * 100 + c * 10 + d) / 10 % 10 = c := by omega
      have q4 : (a * 1000 + b * 100 + c * 10 + d) % 10 = d := by omega
      simp [fourChars, q1, q2, q3, q4]
    · cases h

theorem expectChar_inv {c : Char} {l rest : List Char}
    (h : expectChar c l = some rest) : l = c :: rest := by
  rcases l with _ | ⟨x, tl⟩
  · cases h
  · replace h : (if x = c then some tl else none) = some rest := h
    split at h
    · rename_i hx
      subst hx
      rw [Option.some.inj h]
    · cases h

theorem parseDateTimeList_inv {l : List Char} {dt : DateTime}
    (h : parseDateTimeList l = some dt) : l = printChars dt ∧ dtBounds dt := by
  rw [parseDateTimeList] at h
  split at h
  · cases h
  rename_i y l1 hp1
  split at h
  · cases h
  rename_i l2 hp2
  split at h
  · cases h
  rename_i mo l3 hp3
  split at h
  · cases h
  rename_i l4 hp4
  split at h
  · cases h
  rename_i d l5 hp5
  split at h
  · cases h
  rename_i l6 hp6
  split at h
  · cases h
  rename_i hr l7 hp7
  split at h
  · cases h
  rename_i l8 hp8
  split at h
  · cases h
  rename_i mi l9 hp9
  split at h
  · cases h
  rename_i l10 hp10
  split at h
  · cases h
  rename_i sec l11 hp11
  split at h
  case isFalse => cases h
  case isTrue hcond =>
  obtain ⟨hnil, r1, r2, r3, r4, r5, r6, r7⟩ := hcond
  replace h := Option.some.inj h
  subst h
  obtain ⟨e1, e1b⟩ := parseFour_inv hp1
  have e2 := expectChar_inv hp2
  obtain ⟨e3, _⟩ := parseTwo_inv hp3
  have e4 := expectChar_inv hp4
  obtain ⟨e5, _⟩ := parseTwo_inv hp5
  have e6 := expectChar_inv hp6
  obtain ⟨e7, _⟩ := parseTwo_inv hp7
  have e8 := expectChar_inv hp8
  obtain ⟨e9, _⟩ := parseTwo_inv hp9
  have e10 := expectChar_inv hp10
  obtain ⟨e11, _⟩ := parseTwo_inv hp11
  constructor
  · subst hnil
    rw [e1, e2, e3, e4, e5, e6, e7, e8, e9, e10, e11]
    simp [printChars]
  · exact ⟨r1, r2, r3, r4, r5, r6, r7, e1b⟩

theorem parseDateTime_inj {s1 s2 : String} {dt : DateTime}
    (h1 : parseDateTime s1 = some dt) (h2 : parseDateTime s2 = some dt) :
    s1 = s2 := by
  have q1 := (parseDateTimeList_inv h1).1
  have q2 := (parseDateTimeList_inv h2).1
  cases s1; cases s2
  simp only at q1 q2
  exact congrArg String.mk (q1.trans q2.symm)

theorem parseDateTime_bounds {s : String} {dt : DateTime}
    (h : parseDateTime s = some dt) : dtBounds dt :=
  (parseDateTimeList_inv h).2

theorem daysInMonth_le (y m : Nat) : daysInMonth y m ≤ 31 := by
  unfold daysInMonth
  split
  · split <;> omega
  · split <;> omega

/-- A DateTime as a single integer whose order is the chronological order:
for validated calendar dates, time.Time comparison (After) coincides with
lexicographic comparison of (year, month, day, hour, minute, second), which
this base-100 packing realizes. -/
def dateKey (d : DateTime) : Nat :=
  ((((d.year * 100 + d.month) * 100 + d.day) * 100 + d.hour) * 100 + d.minute) * 100
    + d.second

theorem dateKey_inj {d1 d2 : DateTime} (h1 : dtBounds d1) (h2 : dtBounds d2)
    (h : dateKey d1 = dateKey d2) : d1 = d2 := by
  obtain ⟨a1, a2, a3, a4, a5, a6, a7, a8⟩ := h1
  obtain ⟨b1, b2, b3, b4, b5, b6, b7, b8⟩ := h2
  have ha := daysInMonth_le d1.year d1.month
  have hb := daysInMonth_le d2.year d2.month
  cases d1; cases d2
  simp only [dateKey] at h
  simp only at a1 a2 a3 a4 a5 a6 a7 a8 b1 b2 b3 b4 b5 b6 b7 b8 ha hb
  simp only [DateTime.mk.injEq]
  refine ⟨?_, ?_, ?_, ?_, ?_, ?_⟩ <;> omega

/-- Days since the era origin for a civil date (the standard era-based
formula); monotone in chronological order for valid dates. -/
def daysFromCivil (y m d : Nat) : Nat :=
  let y' := if m ≤ 2 then y - 1 else y
  let era := y' / 400
  let yoe := y' - era * 400
  let doy := (153 * (if m > 2 then m - 3 else m + 9) + 2) / 5 + d - 1
  let doe := yoe * 365 + yoe / 4 - yoe / 100 + doy
  era * 146097 + doe

/-- A DateTime as seconds on a linear clock, the quantity Go's
`now.Sub(parsedRunDate)` measures (whole seconds; the layout carries no
sub-second precision). -/
def toSeconds (d : DateTime) : Nat :=
  daysFromCivil d.year d.month d.day * 86400 + d.hour * 3600 + d.minute * 60 + d.second

/-- The sort.Slice comparator of the kubernetes rebuild
(registry/kubernetes/discover.go:261-274): both run dates unparseable ->
higher leaseId first; one unparseable -> the parseable one first; both
parseable -> later timestamp first (li.After(lj)). -/
def nodeLess (a b : ServiceNode) : Bool :=
  match parseDateTime a.runDate, parseDateTime b.runDate with
  | none, none => decide (a.leaseId > b.leaseId)
  | none, some _ => false
  | some _, none => true
  | some da, some db => decide (dateKey da > dateKey db)

/-- Insertion of one element into a list sorted by `less`, placing it after
any run of elements it is not strictly before (what Go's insertion sort,
used by sort.Slice on the small slices at hand, produces). -/
def insertCmp {α : Type} (less : α → α → Bool) (x : α) : List α → List α
  | [] => [x]
  | y :: ys => if less x y then x :: y :: ys else y :: insertCmp less x ys

/-- Embedding of `sort.Slice(nodes, less)`.  Go's sort.Slice is not stable
and guarantees only that the output is ordered by `less`; the theorems below
use only that ordering guarantee (and that sorting permutes membership),
which any valid sort.Slice output satisfies.  Insertion sort is one concrete
realization fixing the order of elements the comparator does not separate. -/
def sortCmp {α : Type} (less : α → α → Bool) (l : List α) : List α :=
  l.foldl (fun acc x => insertCmp less x acc) []

theorem mem_insertCmp {α : Type} (less : α → α → Bool) (x a : α) (l : List α) :
    a ∈ insertCmp less x l ↔ a = x ∨ a ∈ l := by
  induction l with
  | nil => simp [insertCmp]
  | cons y ys ih =>
    rw [insertCmp]
    split
    · simp
    · simp only [List.mem_cons, ih]
      tauto

theorem mem_sortCmp {α : Type} (less : α → α → Bool) (a : α) (l : List α) :
    a ∈ sortCmp less l ↔ a ∈ l := by
  have aux : ∀ (l acc : List α),
      (a ∈ l.foldl (fun acc x => insertCmp less x acc) acc ↔ a ∈ acc ∨ a ∈ l) := by
    intro l
    induction l with
    | nil => simp
    | cons y ys ih =>
      intro acc
      rw [List.foldl_cons, ih (insertCmp less y acc), mem_insertCmp]
      simp only [List.mem_cons]
      tauto
  rw [sortCmp, aux l []]
  simp

theorem insertCmp_pairwise {α : Type} (less : α → α → Bool)
    (H1 : ∀ a b, less a b = true → less b a = false)
    (H2 : ∀ a b c, less b a = false → less c b = false → less c a = false)
    (x : α) (l : List α) (h : l.Pairwise (fun a b => less b a = false)) :
    (insertCmp less x l).Pairwise (fun a b => less b a = false) := by
  induction l with
  | nil => simp [insertCmp]
  | cons y ys ih =>
    rw [insertCmp]
    have hp := List.pairwise_cons.mp h
    split
    · rename_i hxy
      refine List.pairwise_cons.mpr ⟨?_, h⟩
      intro b hb
      rcases List.mem_cons.mp hb with rfl | hb
      · exact H1 x b hxy
      · exact H2 x y b (H1 x y hxy) (hp.1 b hb)
    · rename_i hxy
      replace hxy : less x y = false := by simpa using hxy
      refine List.pairwise_cons.mpr ⟨?_, ih hp.2⟩
      intro b hb
      rcases (mem_insertCmp less x b ys).mp hb with rfl | hb
      · exact hxy
      · exact hp.1 b hb

theorem sortCmp_pairwise {α : Type} (less : α → α → Bool)
    (H1 : ∀ a b, less a b = true → less b a = false)
    (H2 : ∀ a b c, less b a = false → less c b = false → less c a = false)
    (l : List α) :
    (sortCmp less l).Pairwise (fun a b => less b a = false) := by
  have aux : ∀ (l acc : List α), acc.Pairwise (fun a b => less b a = false) →
      (l.foldl (fun acc x => insertCmp less x acc) acc).Pairwise
        (fun a b => less b a = false) := by
    intro l
    induction l with
    | nil => intro acc h; exact h
    | cons y ys ih =>
      intro acc h
      rw [List.foldl_cons]
      exact ih _ (insertCmp_pairwise less H1 H2 y acc h)
  exact aux l [] List.Pairwise.nil

theorem nodeLess_asymm (a b : ServiceNode) (h : nodeLess a b = true) :
    nodeLess b a = false := by
  unfold nodeLess at h ⊢
  cases hpa : parseDateTime a.runDate <;> cases hpb : parseDateTime b.runDate <;>
    simp_all <;> omega

theorem nodeLess_negtrans (a b c : ServiceNode) (h1 : nodeLess b a = false)
    (h2 : nodeLess c b = false) : nodeLess c a = false := by
  unfold nodeLess at h1 h2 ⊢
  cases hpa : parseDateTime a.runDate <;> cases hpb : parseDateTime b.runDate <;>
    cases hpc : parseDateTime c.runDate <;> simp_all <;> omega

/-- The per-entry body of the kubernetes rebuild accumulation loop
(registry/kubernetes/discover.go:229-257): skip unmarshal failures,
incomplete meta, foreign env, unparseable run_date and stale entries;
append everything else to its appId's slice. -/
def rebuildStep (env : String) (ttl now : Nat) (acc : ServiceDiscover)
    (item : Option ServiceNode) : ServiceDiscover :=
  match item with
  | none => acc
  | some node =>
    match node.meta with
    | none => acc
    | some mt =>
      if mt.appId = "" ∨ mt.env = "" ∨ node.runDate = "" then acc
      else if mt.env ≠ env then acc
      else
        match parseDateTime node.runDate with
        | none => acc
        | some dtv =>
          if ttl > 0 ∧ now - toSeconds dtv > ttl then acc
          else ainsert mt.appId (((alookup mt.appId acc).getD []) ++ [node]) acc

/-- rebuild (registry/kubernetes/discover.go:221-295) restricted to its
observable output: `data` is the list of cm.Data values after
json.Unmarshal (`none` = unmarshal error) in iteration order, `env` is
s.meta.Env, `ttl` is conf.TTL in seconds and `now` the wall clock in whole
seconds.  The service table is built by the filtered accumulation, each
appId's slice is sorted, and the method index is derived from the result. -/
def rebuild (env : String) (ttl now : Nat) (data : List (Option ServiceNode)) :
    DiscoverState :=
  let nextService := data.foldl (rebuildStep env ttl now) []
  let sorted : ServiceDiscover := nextService.map (fun p => (p.1, sortCmp nodeLess p.2))
  let nextMethod : ServiceMethod := sorted.foldl (fun acc p =>
    p.2.foldl (fun acc2 n =>
      n.methods.foldl (fun a sm => ainsert sm p.1 a) acc2) acc) []
  { service := sorted, method := nextMethod }

theorem alookup_map_values {β γ : Type} (f : β → γ) (k : String)
    (m : List (String × β)) :
    alookup k (m.map (fun p => (p.1, f p.2))) = (alookup k m).map f := by
  induction m with
  | nil => rfl
  | cons q rest ih =>
    cases q with
    | mk k' v =>
      by_cases hk : k' = k <;> simp [alookup, hk, ih]

/-- A node that survives the rebuild filters. -/
def goodNode (env : String) (ttl now : Nat) (n : ServiceNode) : Prop :=
  ∃ mt, n.meta = some mt ∧ mt.appId ≠ "" ∧ mt.env ≠ "" ∧ mt.env = env ∧
    n.runDate ≠ "" ∧ ∃ dtv, parseDateTime n.runDate = some dtv ∧
      ¬ (ttl > 0 ∧ now - toSeconds dtv > ttl)

theorem rebuildStep_mem (env : String) (ttl now : Nat) (acc : ServiceDiscover)
    (item : Option ServiceNode)
    (hacc : ∀ ap ns n, alookup ap acc = some ns → n ∈ ns → goodNode env ttl now n) :
    ∀ ap ns n, alookup ap (rebuildStep env ttl now acc item) = some ns → n ∈ ns →
      goodNode env ttl now n := by
  intro ap ns n hns hn
  rw [rebuildStep.eq_def] at hns
  split at hns
  · exact hacc ap ns n hns hn
  rename_i node
  split at hns
  · exact hacc ap ns n hns hn
  rename_i mt hmt
  split at hns
  · exact hacc ap ns n hns hn
  rename_i hne
  split at hns
  · exact hacc ap ns n hns hn
  rename_i henv
  split at hns
  · exact hacc ap ns n hns hn
  rename_i dtv hdtv
  split at hns
  · exact hacc ap ns n hns hn
  rename_i hstale
  by_cases hap : ap = mt.appId
  · rw [hap] at hns
    rw [alookup_ainsert_self] at hns
    replace hns := Option.some.inj hns
    subst hns
    rcases List.mem_append.mp hn with hn | hn
    · cases h0 : alookup mt.appId acc with
      | none => rw [h0] at hn; simp at hn
      | some ns0 =>
        rw [h0] at hn
        exact hacc mt.appId ns0 n h0 hn
    · have hnode : n = node := by simpa using hn
      subst hnode
      push_neg at hne
      refine ⟨mt, hmt, hne.1, hne.2.1, by simpa using henv, hne.2.2, dtv, hdtv, hstale⟩
  · rw [alookup_ainsert_ne ap mt.appId _ acc (fun hh => hap hh.symm)] at hns
    exact hacc ap ns n hns hn

theorem rebuildService_mem (env : String) (ttl now : Nat) :
    ∀ (data : List (Option ServiceNode)) (acc : ServiceDiscover),
      (∀ ap ns n, alookup ap acc = some ns → n ∈ ns → goodNode env ttl now n) →
      ∀ ap ns n, alookup ap (data.foldl (rebuildStep env ttl now) acc) = some ns →
        n ∈ ns → goodNode env ttl now n := by
  intro data
  induction data with
  | nil => intro acc hacc; exact hacc
  | cons item rest ih =>
    intro acc hacc
    rw [List.foldl_cons]
    exact ih _ (rebuildStep_mem env ttl now acc item hacc)

theorem rebuild_mem_good (env : String) (ttl now : Nat)
    (data : List (Option ServiceNode)) (ap : String) (ns : List ServiceNode)
    (n : ServiceNode) (hns : alookup ap (rebuild env ttl now data).service = some ns)
    (hn : n ∈ ns) : goodNode env ttl now n := by
  rw [show (rebuild env ttl now data).service =
    (data.foldl (rebuildStep env ttl now) []).map
      (fun p => (p.1, sortCmp nodeLess p.2)) from rfl, alookup_map_values] at hns
  cases h0 : alookup ap (data.foldl (rebuildStep env ttl now) []) with
  | none => rw [h0] at hns; cases hns
  | some ns0 =>
    rw [h0] at hns
    replace hns := Option.some.inj hns
    subst hns
    have hn0 : n ∈ ns0 := (mem_sortCmp nodeLess n ns0).mp hn
    exact rebuildService_mem env ttl now data []
      (by intro ap' ns' n' h' _; cases h') ap ns0 n h0 hn0

theorem rebuild_sorted (env : String) (ttl now : Nat)
    (data : List (Option ServiceNode)) (ap : String) (ns : List ServiceNode)
    (hns : alookup ap (rebuild env ttl now data).service = some ns) :
    ns.Pairwise (fun a b => nodeLess b a = false) := by
  rw [show (rebuild env ttl now data).service =
    (data.foldl (rebuildStep env ttl now) []).map
      (fun p => (p.1, sortCmp nodeLess p.2)) from rfl, alookup_map_values] at hns
  cases h0 : alookup ap (data.foldl (rebuildStep env ttl now) []) with
  | none => rw [h0] at hns; cases hns
  | some ns0 =>
    rw [h0] at hns
    replace hns := Option.some.inj hns
    subst hns
    exact sortCmp_pairwise nodeLess nodeLess_asymm nodeLess_negtrans ns0

/-- One etcd watch response as the Watcher loop sees it
(registry/register.go:206-254): cancellation flag, compact revision
(positive exactly when the backend signals compaction) and header revision. -/
structure EtcdWatchResponse where
  canceled : Bool
  compactRevision : Int
  headerRevision : Int
deriving DecidableEq

/-- The startRev update performed for one watch response
(registry/register.go:215-247): on a compaction signal jump to
compactRevision + 1; otherwise advance to headerRevision + 1 only when that
is larger than the current value. -/
def nextStartRev (startRev : Int) (v : EtcdWatchResponse) : Int :=
  if v.canceled then
    if v.compactRevision > 0 then v.compactRevision + 1
    else if v.headerRevision > 0 then
      (if v.headerRevision + 1 > startRev then v.headerRevision + 1 else startRev)
    else startRev
  else
    if v.headerRevision > 0 then
      (if v.headerRevision + 1 > startRev then v.headerRevision + 1 else startRev)
    else startRev

/-- The waitIndex update performed after one successful consul blocking
query (registry/consul/discover.go:173-176): `if meta != nil &&
meta.LastIndex != 0 { s.waitIndex = meta.LastIndex }` — an unconditional
overwrite, with no monotonic guard. -/
def nextWaitIndex (waitIndex : Nat) (lastIndex : Option Nat) : Nat :=
  match lastIndex with
  | none => waitIndex
  | some li => if li ≠ 0 then li else waitIndex

theorem upsert_preserves_wf (st : DiscoverState) (ap : String) (v : ServiceNode)
    (hwf : ServiceWF st) : ServiceWF (upsertNodeLocked st ap v) := by
  constructor
  · rw [upsert_service_eq]
    exact akeys_nodup_ainsert ap _ st.service hwf.1
  · exact akeys_nodup_refresh _ ap hwf.2

theorem delete_preserves_wf (st : DiscoverState) (ap : String) (v : ServiceNode)
    (hwf : ServiceWF st) : ServiceWF (deleteNodeLocked st ap v) := by
  constructor
  · have hsvc := delete_service_eq st ap v
    simp only at hsvc
    rw [hsvc]
    split
    · exact akeys_nodup_filter _ st.service hwf.1
    · exact akeys_nodup_ainsert ap _ st.service hwf.1
  · exact akeys_nodup_refresh _ ap hwf.2

theorem adapter_preserves_wf (st : DiscoverState) (e : WatchEvent)
    (hwf : ServiceWF st) : ServiceWF (adapter st e) := by
  rw [adapter_eq_eventNode]
  cases hev : eventNode e with
  | none => exact hwf
  | some v =>
    cases e.type with
    | put => exact upsert_preserves_wf st (metaAppId v) v hwf
    | delete => exact delete_preserves_wf st (metaAppId v) v hwf

theorem applyEvents_preserves_basic (es : List WatchEvent) :
    ∀ st : DiscoverState, ServiceWF st → NodesKeyed st → LeaseUnique st →
      ServiceWF (applyEvents st es) ∧ NodesKeyed (applyEvents st es) ∧
        LeaseUnique (applyEvents st es) := by
  induction es with
  | nil => intro st h1 h2 h3; exact ⟨h1, h2, h3⟩
  | cons e rest ih =>
    intro st h1 h2 h3
    rw [applyEvents, List.foldl_cons]
    obtain ⟨g1, g2, g3⟩ := adapter_preserves_basic st e h1 h2 h3
    exact ih (adapter st e) g1 g2 g3

theorem filter_idem {α : Type} (p : α → Bool) (l : List α) :
    (l.filter p).filter p = l.filter p := by
  induction l with
  | nil => rfl
  | cons x xs ih =>
    rw [List.filter_cons]
    split
    · rename_i hx
      rw [List.filter_cons, if_pos hx, ih]
    · exact ih

theorem kept_filter_self (v : ServiceNode) (ns : List ServiceNode) :
    ((v :: ns.filter (fun n => n.leaseId ≠ v.leaseId)).filter
      (fun n => n.leaseId ≠ v.leaseId)) = ns.filter (fun n => n.leaseId ≠ v.leaseId) := by
  rw [List.filter_cons]
  split
  · rename_i hv; simp at hv
  · exact filter_idem _ ns

theorem listIsEmpty_eq_nil {α : Type} (l : List α) : l.isEmpty = true ↔ l = [] := by
  cases l <;> simp [List.isEmpty]

theorem upsert_eq_refresh (st : DiscoverState) (ap : String) (v : ServiceNode) :
    upsertNodeLocked st ap v =
      refreshMethodsLocked
        { service := ainsert ap
            (v :: ((alookup ap st.service).getD []).filter
              (fun n => n.leaseId ≠ v.leaseId)) st.service,
          method := st.method } ap := rfl

theorem delete_eq_refresh (st : DiscoverState) (ap : String) (v : ServiceNode) :
    deleteNodeLocked st ap v =
      refreshMethodsLocked
        { service := (deleteNodeLocked st ap v).service,
          method := st.method } ap := rfl

theorem upsert_method_lookup (st : DiscoverState) (ap : String) (v : ServiceNode)
    (hnd : (akeys st.method).Nodup) (sm : String) :
    alookup sm (upsertNodeLocked st ap v).method =
      if sm ∈ collectMethods
        (v :: ((alookup ap st.service).getD []).filter (fun n => n.leaseId ≠ v.leaseId))
      then some ap
      else (alookup sm st.method).bind (fun c => if c = ap then none else some c) := by
  rw [upsert_eq_refresh st ap v]
  rw [alookup_refresh_method
    { service := ainsert ap
        (v :: ((alookup ap st.service).getD []).filter (fun n => n.leaseId ≠ v.leaseId))
        st.service,
      method := st.method } ap sm hnd]
  simp [alookup_ainsert_self]

theorem delete_method_lookup (st : DiscoverState) (ap : String) (v : ServiceNode)
    (hnd : (akeys st.method).Nodup) (sm : String) :
    alookup sm (deleteNodeLocked st ap v).method =
      if sm ∈ collectMethods ((alookup ap (deleteNodeLocked st ap v).service).getD [])
      then some ap
      else (alookup sm st.method).bind (fun c => if c = ap then none else some c) := by
  conv_lhs => rw [delete_eq_refresh st ap v]
  rw [alookup_refresh_method
    { service := (deleteNodeLocked st ap v).service, method := st.method } ap sm hnd]

theorem bind_filter_ap_idem (x : Option String) (ap : String) :
    ((x.bind (fun c => if c = ap then none else some c)).bind
      (fun c => if c = ap then none else some c)) =
    x.bind (fun c => if c = ap then none else some c) := by
  cases x with
  | none => rfl
  | some c => by_cases hc : c = ap <;> simp [Option.bind, hc]

theorem upsert_idempotent (st : DiscoverState) (ap : String) (v : ServiceNode)
    (hwf : ServiceWF st) :
    (∀ b, alookup b (upsertNodeLocked (upsertNodeLocked st ap v) ap v).service =
      alookup b (upsertNodeLocked st ap v).service) ∧
    (∀ sm, alookup sm (upsertNodeLocked (upsertNodeLocked st ap v) ap v).method =
      alookup sm (upsertNodeLocked st ap v).method) := by
  set kept := ((alookup ap st.service).getD []).filter
    (fun n => n.leaseId ≠ v.leaseId) with hkdef
  have hlk : alookup ap (upsertNodeLocked st ap v).service = some (v :: kept) := by
    rw [upsert_service_eq, alookup_ainsert_self]
  have hkept1 : ((alookup ap (upsertNodeLocked st ap v).service).getD []).filter
      (fun n => n.leaseId ≠ v.leaseId) = kept := by
    rw [hlk]
    simp only [Option.getD_some]
    rw [hkdef]
    exact kept_filter_self v _
  have hsvc2 : (upsertNodeLocked (upsertNodeLocked st ap v) ap v).service =
      ainsert ap (v :: kept) (upsertNodeLocked st ap v).service := by
    rw [upsert_service_eq (upsertNodeLocked st ap v) ap v, hkept1]
  constructor
  · intro b
    rw [hsvc2]
    by_cases hb : b = ap
    · subst hb
      rw [alookup_ainsert_self, hlk]
    · rw [alookup_ainsert_ne b ap _ _ (Ne.symm hb)]
  · intro sm
    have hnd1 : (akeys (upsertNodeLocked st ap v).method).Nodup :=
      (upsert_preserves_wf st ap v hwf).2
    rw [upsert_method_lookup (upsertNodeLocked st ap v) ap v hnd1 sm, hkept1,
      upsert_method_lookup st ap v hwf.2 sm]
    by_cases hc : sm ∈ collectMethods (v :: kept)
    · rw [if_pos hc, if_pos hc]
    · rw [if_neg hc, if_neg hc]
      exact bind_filter_ap_idem _ ap

theorem delete_idempotent (st : DiscoverState) (ap : String) (v : ServiceNode)
    (hwf : ServiceWF st) :
    (∀ b, alookup b (deleteNodeLocked (deleteNodeLocked st ap v) ap v).service =
      alookup b (deleteNodeLocked st ap v).service) ∧
    (∀ sm, alookup sm (deleteNodeLocked (deleteNodeLocked st ap v) ap v).method =
      alookup sm (deleteNodeLocked st ap v).method) := by
  set kept := ((alookup ap st.service).getD []).filter
    (fun n => n.leaseId ≠ v.leaseId) with hkdef
  have hsvc1 : (deleteNodeLocked st ap v).service =
      (if kept.isEmpty then aerase ap st.service else ainsert ap kept st.service) := by
    have h0 := delete_service_eq st ap v
    simp only at h0
    rw [hkdef]
    exact h0
  have hlk1 : alookup ap (deleteNodeLocked st ap v).service =
      (if kept.isEmpty then none else some kept) := by
    rw [hsvc1]
    split
    · exact alookup_aerase_self ap st.service
    · exact alookup_ainsert_self ap kept st.service
  have hkept1 : ((alookup ap (deleteNodeLocked st ap v).service).getD []).filter
      (fun n => n.leaseId ≠ v.leaseId) = kept := by
    rw [hlk1]
    by_cases he : kept.isEmpty
    · rw [if_pos he]
      have : kept = [] := (listIsEmpty_eq_nil kept).mp he
      simp [this]
    · rw [if_neg he]
      simp only [Option.getD_some]
      rw [hkdef]
      exact filter_idem _ _
  have hsvc2 : (deleteNodeLocked (deleteNodeLocked st ap v) ap v).service =
      (if kept.isEmpty then aerase ap (deleteNodeLocked st ap v).service
       else ainsert ap kept (deleteNodeLocked st ap v).service) := by
    have := delete_service_eq (deleteNodeLocked st ap v) ap v
    simp only at this
    rw [this, hkept1]
  have hsvc_eq : ∀ b, alookup b (deleteNodeLocked (deleteNodeLocked st ap v) ap v).service =
      alookup b (deleteNodeLocked st ap v).service := by
    intro b
    rw [hsvc2]
    by_cases hb : b = ap
    · subst hb
      split
      · rename_i he
        rw [alookup_aerase_self, hlk1, if_pos he]
      · rename_i he
        rw [alookup_ainsert_self, hlk1, if_neg he]
    · split
      · rw [alookup_aerase_ne b ap _ (Ne.symm hb)]
      · rw [alookup_ainsert_ne b ap _ _ (Ne.symm hb)]
  refine ⟨hsvc_eq, ?_⟩
  intro sm
  have hnd1 : (akeys (deleteNodeLocked st ap v).method).Nodup :=
    (delete_preserves_wf st ap v hwf).2
  rw [delete_method_lookup (deleteNodeLocked st ap v) ap v hnd1 sm,
    delete_method_lookup st ap v hwf.2 sm]
  have hcur : ((alookup ap (deleteNodeLocked (deleteNodeLocked st ap v) ap v).service).getD
      []) = ((alookup ap (deleteNodeLocked st ap v).service).getD []) := by
    rw [hsvc_eq ap]
  rw [hcur]
  by_cases hc : sm ∈ collectMethods ((alookup ap (deleteNodeLocked st ap v).service).getD [])
  · rw [if_pos hc, if_pos hc]
  · rw [if_neg hc, if_neg hc]
    exact bind_filter_ap_idem _ ap

theorem adapter_idempotent (st : DiscoverState) (e : WatchEvent)
    (hwf : ServiceWF st) :
    (∀ b, alookup b (adapter (adapter st e) e).service =
      alookup b (adapter st e).service) ∧
    (∀ sm, alookup sm (adapter (adapter st e) e).method =
      alookup sm (adapter st e).method) := by
  rw [adapter_eq_eventNode, adapter_eq_eventNode st e]
  cases hev : eventNode e with
  | none => exact ⟨fun b => rfl, fun sm => rfl⟩
  | some v =>
    cases e.type with
    | put => exact upsert_idempotent st (metaAppId v) v hwf
    | delete => exact delete_idempotent st (metaAppId v) v hwf

/-- A fully-populated service node as Install writes it (concrete inputs for
witnesses and counterexamples). -/
def mkNode (ap env : String) (lease : Int) (rd : String) (ms : List String) :
    ServiceNode :=
  { protoCount := 1, leaseId := lease, weight := 0, runDate := rd, methods := ms,
    network := none, kernel := none,
    meta := some { env := env, appId := ap, version := "1" } }

/-- An etcd Put watch event carrying node `n`. -/
def putEvent (n : ServiceNode) : WatchEvent :=
  { type := EventType.put, kv := some { value := some n }, prevKv := none }

/-- An etcd Delete watch event whose PrevKv carries the deleted node `n`. -/
def delEvent (n : ServiceNode) : WatchEvent :=
  { type := EventType.delete, kv := some { value := none },
    prevKv := some { value := some n } }

theorem nextStartRev_ge (rev : Int) (v : EtcdWatchResponse)
    (h : ¬ (v.canceled = true ∧ v.compactRevision > 0)) :
    nextStartRev rev v ≥ rev := by
  unfold nextStartRev
  by_cases h1 : v.canceled = true
  · rw [if_pos h1]
    have h2 : ¬ v.compactRevision > 0 := fun hcp => h ⟨h1, hcp⟩
    rw [if_neg h2]
    split_ifs <;> omega
  · rw [if_neg h1]
    split_ifs <;> omega

theorem foldl_nextStartRev_ge (vs : List EtcdWatchResponse) :
    ∀ rev : Int, (∀ u ∈ vs, ¬ (u.canceled = true ∧ u.compactRevision > 0)) →
      List.foldl nextStartRev rev vs ≥ rev := by
  induction vs with
  | nil => intro rev _; exact le_refl rev
  | cons u us ih =>
    intro rev h
    rw [List.foldl_cons]
    have h1 := nextStartRev_ge rev u (h u (List.mem_cons_self u us))
    have h2 := ih (nextStartRev rev u)
      (fun w hw => h w (List.mem_cons_of_mem u hw))
    omega

/-- Claim C4: when the renewal channel is lost and every retry attempt fails,
the retry counter is incremented once per attempt until it reaches maxRetry,
the retry helper returns false, and SustainLease exits its loop right there:
the remaining session events are never processed, the before-hook fired once
per attempt, the after-hook never fired, and no error value exists to
surface (the session result type, like the Go function, carries none). -/
theorem C4_retry_exhaustion (maxRetry : Nat) (att : Nat → RetryOutcome)
    (hf : ∀ i, att i = RetryOutcome.grantFail ∨ att i = RetryOutcome.putFail)
    (rest : List SessionEvent) :
    retryLease maxRetry 0 att = ⟨false, maxRetry, maxRetry, 0⟩ ∧
    sustainLease maxRetry 0 (SessionEvent.lost att :: rest) =
      ⟨maxRetry, maxRetry, 0, true⟩ := by
  have h1 : retryLease maxRetry 0 att = ⟨false, maxRetry, maxRetry, 0⟩ := by
    rw [retryLease, Nat.sub_zero, retryLeaseAux_all_fail att hf maxRetry 0 0]
    rw [Nat.zero_add]
  refine ⟨h1, ?_⟩
  rw [sustainLease, h1]
  rfl

/-- Witness for C4 at maxRetry = 3 with every attempt a failed Grant. -/
theorem C4_witness :
    retryLease 3 0 (fun _ => RetryOutcome.grantFail) = ⟨false, 3, 3, 0⟩ ∧
    sustainLease 3 0 (SessionEvent.lost (fun _ => RetryOutcome.grantFail) ::
      [SessionEvent.ack]) = ⟨3, 3, 0, true⟩ :=
  C4_retry_exhaustion 3 (fun _ => RetryOutcome.grantFail)
    (fun _ => Or.inl rfl) [SessionEvent.ack]

/-- Claim C5: a successful retry attempt leaves the retry counter at zero, a
renewal acknowledgement resets it to zero, and in the scenario of two
renewal-channel losses under maxRetry = 3, each recovered on its first
attempt, the pre- and post-retry hooks fire exactly twice each and the
counter ends at zero. -/
theorem C5_counter_reset :
    (∀ maxRetry count att, (retryLease maxRetry count att).ok = true →
      (retryLease maxRetry count att).count = 0) ∧
    (∀ maxRetry count rest,
      sustainLease maxRetry count (SessionEvent.ack :: rest) =
        sustainLease maxRetry 0 rest) ∧
    sustainLease 3 0 [SessionEvent.lost (fun _ => RetryOutcome.success),
      SessionEvent.lost (fun _ => RetryOutcome.success)] =
      { count := 0, befores := 2, afters := 2, abandoned := false } := by
  refine ⟨?_, ?_, ?_⟩
  · intro m c att h
    exact retryLeaseAux_ok_count att (m - c) c 0 h
  · intro m c rest; rfl
  · rfl

/-- Witness for C5: a first-attempt success from count 1 ends at count 0,
and an acknowledgement resets the counter. -/
theorem C5_witness :
    (retryLease 3 1 (fun _ => RetryOutcome.success)).count = 0 ∧
    sustainLease 3 2 [SessionEvent.ack] = sustainLease 3 0 [] :=
  ⟨C5_counter_reset.1 3 1 (fun _ => RetryOutcome.success) (by decide),
   C5_counter_reset.2.1 3 2 []⟩

/-- Counterexample to C9 as stated: the consul Watcher assigns waitIndex
from the response's LastIndex without a monotonic guard, so a backend
returning a smaller index moves the cursor backwards (10 to 5 here). -/
theorem C9_counterexample : nextWaitIndex 10 (some 5) = 5 ∧ 5 < 10 := by decide

/-- Claim C9 (amended): the etcd start revision never decreases across watch
loop iterations — each batch advances it to header revision + 1 exactly when
that is larger, and only a backend-signaled compaction overrides it, to
compactRevision + 1; the consul waitIndex, by contrast, is simply
overwritten with every nonzero LastIndex and may regress. -/
theorem C9_cursor_monotonic (rev : Int) (v : EtcdWatchResponse)
    (vs : List EtcdWatchResponse) (w li : Nat) :
    (¬ (v.canceled = true ∧ v.compactRevision > 0) → nextStartRev rev v ≥ rev) ∧
    (v.canceled = true → v.compactRevision > 0 →
      nextStartRev rev v = v.compactRevision + 1) ∧
    (v.canceled = false → v.headerRevision > 0 → v.headerRevision + 1 > rev →
      nextStartRev rev v = v.headerRevision + 1) ∧
    ((∀ u ∈ vs, ¬ (u.canceled = true ∧ u.compactRevision > 0)) →
      List.foldl nextStartRev rev vs ≥ rev) ∧
    nextWaitIndex w (some li) = (if li ≠ 0 then li else w) := by
  refine ⟨nextStartRev_ge rev v, ?_, ?_, foldl_nextStartRev_ge vs rev, rfl⟩
  · intro h1 h2
    unfold nextStartRev
    rw [if_pos h1, if_pos h2]
  · intro h1 h2 h3
    unfold nextStartRev
    rw [if_neg (by simp [h1]), if_pos h2, if_pos h3]

/-- Witness for C9: a normal batch advances 5 to 10, a compaction jumps to
8, and a compaction-free response list never lowers the cursor. -/
theorem C9_witness :
    nextStartRev 5 ⟨false, 0, 9⟩ = (9 : Int) + 1 ∧
    nextStartRev 5 ⟨true, 7, 0⟩ = (7 : Int) + 1 ∧
    List.foldl nextStartRev 5 [⟨false, 0, 9⟩, ⟨false, 0, 3⟩] ≥ 5 :=
  ⟨(C9_cursor_monotonic 5 ⟨false, 0, 9⟩ [] 0 0).2.2.1 rfl (by decide) (by decide),
   (C9_cursor_monotonic 5 ⟨true, 7, 0⟩ [] 0 0).2.1 rfl (by decide),
   (C9_cursor_monotonic 5 ⟨false, 0, 9⟩ [⟨false, 0, 9⟩, ⟨false, 0, 3⟩] 0 0).2.2.2.1
     (by decide)⟩

/-- Claim C10: an etcd delete event with nil PrevKv cannot be parsed, so the
adapter returns before touching either index — the cache state is exactly
unchanged. -/
theorem C10_delete_nil_prevkv (st : DiscoverState) (kv : Option KeyValue) :
    adapter st { type := EventType.delete, kv := kv, prevKv := none } = st := rfl

/-- The event sequence of the C1 counterexample: two appIds announce the
same method, then the second appId is deleted. -/
def C1badEvents : List WatchEvent :=
  [putEvent (mkNode "A" "prod" 1 "" ["/svc/M"]),
   putEvent (mkNode "B" "prod" 2 "" ["/svc/M"]),
   delEvent (mkNode "B" "prod" 2 "" ["/svc/M"])]

/-- Counterexample to C1 as stated: after replaying C1badEvents the node of
appId A still serves /svc/M, yet the method index has no entry for it (the
upsert of B overwrote the owner and the delete of B cleared it), so the
method index is not the union the claim demands and GetService misses a
live route. -/
theorem C1_counterexample :
    alookup "/svc/M" (applyEvents emptyState C1badEvents).method = none ∧
    alookup "A" (applyEvents emptyState C1badEvents).service =
      some [mkNode "A" "prod" 1 "" ["/svc/M"]] ∧
    "/svc/M" ∈ (mkNode "A" "prod" 1 "" ["/svc/M"]).methods ∧
    GetService (applyEvents emptyState C1badEvents) "/svc/M" =
      Except.error DiscoverError.methodNotExists ∧
    ¬ MethodConsistent (applyEvents emptyState C1badEvents) := by
  refine ⟨by decide, by decide, by decide, by decide, ?_⟩
  intro h
  have hm := (h "/svc/M" "A").mpr
    ⟨[mkNode "A" "prod" 1 "" ["/svc/M"]], by decide,
     mkNode "A" "prod" 1 "" ["/svc/M"], by decide, by decide⟩
  exact absurd hm (by decide)

/-- Claim C1 (amended): provided any two event payloads of different appIds
announce disjoint method sets — each fully-qualified method belongs to one
service — then after every prefix of the replayed sequence the method index
is exactly the union, over all appIds and nodes of the service index, of
each node's methods mapped to that node's appId; in particular a method no
surviving node serves (e.g. one dropped by an update that shrank a node's
method set) is absent and GetService returns ErrServiceMethodNotExists. -/
theorem C1_method_index (es : List WatchEvent) (hd : eventsDisjoint es = true)
    (pre suf : List WatchEvent) (hsplit : es = pre ++ suf) :
    MethodConsistent (applyEvents emptyState pre) ∧
    ∀ sm, (∀ ap ns n, alookup ap (applyEvents emptyState pre).service = some ns →
        n ∈ ns → sm ∉ n.methods) →
      GetService (applyEvents emptyState pre) sm =
        Except.error DiscoverError.methodNotExists := by
  have hsub : ∀ e ∈ pre, e ∈ es := by
    intro e he
    rw [hsplit]
    exact List.mem_append_left suf he
  obtain ⟨hwf, hk, hl, hmc, hnf⟩ :=
    applyEvents_preserves_inv es hd pre emptyState hsub (emptyState_inv es)
  refine ⟨hmc, ?_⟩
  intro sm hnone
  cases hlo : alookup sm (applyEvents emptyState pre).method with
  | none => simp [GetService, hlo]
  | some ap =>
    exfalso
    rcases (hmc sm ap).mp hlo with ⟨ns, hns, n, hn, hsm⟩
    exact hnone ap ns n hns hn hsm

/-- The witness scenario for C1: one appId installs methods /a and /b under
leaseId 1, then updates the same leaseId to methods /a only. -/
def C1events : List WatchEvent :=
  [putEvent (mkNode "A" "prod" 1 "" ["/a", "/b"]),
   putEvent (mkNode "A" "prod" 1 "" ["/a"])]

/-- Witness for C1: after the shrink update the index is consistent and the
dropped method /b yields ErrServiceMethodNotExists. -/
theorem C1_witness :
    MethodConsistent (applyEvents emptyState C1events) ∧
    GetService (applyEvents emptyState C1events) "/b" =
      Except.error DiscoverError.methodNotExists := by
  constructor
  · exact (C1_method_index C1events (by decide) C1events [] (by simp)).1
  · apply (C1_method_index C1events (by decide) C1events [] (by simp)).2 "/b"
    intro ap ns n hns hn
    have hsvc : (applyEvents emptyState C1events).service =
        [("A", [mkNode "A" "prod" 1 "" ["/a"]])] := by decide
    rw [hsvc] at hns
    simp only [alookup] at hns
    split at hns
    · replace hns := Option.some.inj hns
      subst hns
      have hx : n = mkNode "A" "prod" 1 "" ["/a"] := by simpa using hn
      subst hx
      decide
    · cases hns

/-- Claim C2: every reachable state keeps at most one node per leaseId in
each appId's list, and an upsert replaces — the stored list is exactly the
new node in front of the previous nodes with its leaseId filtered out. -/
theorem C2_lease_uniqueness :
    (∀ es ap ns, alookup ap (applyEvents emptyState es).service = some ns →
      ns.Pairwise (fun a b => a.leaseId ≠ b.leaseId)) ∧
    (∀ st ap v, alookup ap (upsertNodeLocked st ap v).service =
      some (v :: ((alookup ap st.service).getD []).filter
        (fun n => n.leaseId ≠ v.leaseId))) := by
  constructor
  · intro es ap ns hns
    obtain ⟨hwf, hk, hl, _, _⟩ := emptyState_inv ([] : List WatchEvent)
    obtain ⟨_, _, hl'⟩ := applyEvents_preserves_basic es emptyState hwf hk hl
    exact hl' ap ns hns
  · intro st ap v
    rw [upsert_service_eq, alookup_ainsert_self]

/-- Nodes of the C2 witness: two writes under the same leaseId 7. -/
def C2node : ServiceNode := mkNode "A" "prod" 7 "" ["/x"]

/-- Second write of the C2 witness (same leaseId, new method set). -/
def C2node2 : ServiceNode := mkNode "A" "prod" 7 "" ["/y"]

/-- Witness for C2: replaying two upserts of leaseId 7 leaves a
single-element (hence lease-unique) list, and the upsert equation holds on
the empty state. -/
theorem C2_witness :
    ([C2node2] : List ServiceNode).Pairwise (fun a b => a.leaseId ≠ b.leaseId) ∧
    alookup "A" (upsertNodeLocked emptyState "A" C2node).service =
      some (C2node :: ((alookup "A" emptyState.service).getD []).filter
        (fun n => n.leaseId ≠ C2node.leaseId)) :=
  ⟨C2_lease_uniqueness.1 [putEvent C2node, putEvent C2node2] "A" [C2node2]
     (by decide),
   C2_lease_uniqueness.2 emptyState "A" C2node⟩

/-- Claim C3: GetService returns ErrServiceMethodNotExists when the method
has no owner in the method index, ErrServiceNodeNotExists when the owning
appId is missing from the service index, and on success (over any state a
Discovery Cache can reach by replaying events) a non-empty node list. -/
theorem C3_getservice_errors (st : DiscoverState) (sm : String) :
    (alookup sm st.method = none →
      GetService st sm = Except.error DiscoverError.methodNotExists) ∧
    (∀ ap, alookup sm st.method = some ap → alookup ap st.service = none →
      GetService st sm = Except.error DiscoverError.nodeNotExists) ∧
    (∀ es nodes, st = applyEvents emptyState es →
      GetService st sm = Except.ok nodes → nodes ≠ []) := by
  refine ⟨?_, ?_, ?_⟩
  · intro h
    simp [GetService, h]
  · intro ap h1 h2
    simp [GetService, h1, h2]
  · intro es nodes hst hok
    subst hst
    obtain ⟨hwf, hk, hl, _, _⟩ := emptyState_inv ([] : List WatchEvent)
    obtain ⟨_, hk', _⟩ := applyEvents_preserves_basic es emptyState hwf hk hl
    unfold GetService at hok
    split at hok
    · cases hok
    rename_i ap h1
    split at hok
    · cases hok
    rename_i ns2 h2
    injection hok with hok
    subst hok
    exact (hk' ap ns2 h2).1

/-- Node of the C3 witness. -/
def C3node : ServiceNode := mkNode "A" "prod" 1 "" ["/svc/A"]

/-- Witness for C3: an unknown method yields MethodNotFound, a method index
entry whose appId is missing from the service table yields NodeNotFound,
and the successful lookup returns the non-empty list. -/
theorem C3_witness :
    GetService (applyEvents emptyState [putEvent C3node]) "/nope" =
      Except.error DiscoverError.methodNotExists ∧
    GetService ⟨[], [("/m", "A")]⟩ "/m" =
      Except.error DiscoverError.nodeNotExists ∧
    ([C3node] : List ServiceNode) ≠ [] :=
  ⟨(C3_getservice_errors (applyEvents emptyState [putEvent C3node]) "/nope").1
     (by decide),
   (C3_getservice_errors ⟨[], [("/m", "A")]⟩ "/m").2.1 "A" (by decide) (by decide),
   (C3_getservice_errors (applyEvents emptyState [putEvent C3node]) "/svc/A").2.2
     [putEvent C3node] [C3node] rfl (by decide)⟩

/-- First node of the C6 counterexample: leaseId 1, run date equal to the
second node's. -/
def C6n1 : ServiceNode := mkNode "A" "prod" 1 "2024-05-01 10:00:00" ["/svc/M"]

/-- Second node of the C6 counterexample: leaseId 2, same run date. -/
def C6n2 : ServiceNode := mkNode "A" "prod" 2 "2024-05-01 10:00:00" ["/svc/M"]

/-- Rebuild time of the C6 counterexample (both nodes fresh). -/
def C6now : Nat := toSeconds ⟨2024, 5, 1, 10, 0, 0⟩

/-- Counterexample to C6 as stated: two nodes with equal, parseable run
dates come out of the rebuild with leaseId 1 before leaseId 2 — ties are
not broken by leaseId descending, because the comparator consults leaseIds
only when both run dates fail to parse, which the rebuild filter makes
impossible. -/
theorem C6_counterexample :
    alookup "A" (rebuild "prod" 10 C6now [some C6n1, some C6n2]).service =
      some [C6n1, C6n2] ∧
    C6n1.runDate = C6n2.runDate ∧ C6n2.leaseId > C6n1.leaseId ∧
    parseDateTime C6n1.runDate = some ⟨2024, 5, 1, 10, 0, 0⟩ := by decide

/-- Claim C6 (amended): in every appId list produced by the poll-and-diff
rebuild, run dates are parseable and descending — strictly descending for
nodes with distinct run_date strings.  No tie-break is guaranteed: the
relative order of nodes with equal run dates is unspecified (sort.Slice is
not stable), and the comparator's leaseId branch applies only when both run
dates are unparseable, a case the rebuild filter rules out. -/
theorem C6_fresh_ordering (env : String) (ttl now : Nat)
    (data : List (Option ServiceNode)) (ap : String) (ns : List ServiceNode)
    (hns : alookup ap (rebuild env ttl now data).service = some ns) :
    ns.Pairwise (fun a b => ∃ da db, parseDateTime a.runDate = some da ∧
      parseDateTime b.runDate = some db ∧ dateKey db ≤ dateKey da ∧
      (a.runDate ≠ b.runDate → dateKey db < dateKey da)) := by
  have hsorted := rebuild_sorted env ttl now data ap ns hns
  have hgood : ∀ n ∈ ns, goodNode env ttl now n := fun n hn =>
    rebuild_mem_good env ttl now data ap ns n hns hn
  refine List.Pairwise.imp_of_mem ?_ hsorted
  intro a b ha hb hle
  obtain ⟨_, _, _, _, _, _, da, hda, _⟩ := hgood a ha
  obtain ⟨_, _, _, _, _, _, db, hdb, _⟩ := hgood b hb
  have hkey : ¬ dateKey db > dateKey da := by
    unfold nodeLess at hle
    rw [hdb, hda] at hle
    simpa using hle
  refine ⟨da, db, hda, hdb, by omega, ?_⟩
  intro hne
  have hneq : dateKey db ≠ dateKey da := by
    intro heq
    have hdd : db = da :=
      dateKey_inj (parseDateTime_bounds hdb) (parseDateTime_bounds hda) heq
    subst hdd
    exact hne (parseDateTime_inj hda hdb)
  omega

/-- Older node of the C6 witness. -/
def C6w1 : ServiceNode := mkNode "A" "prod" 1 "2024-05-01 10:00:00" ["/svc/M"]

/-- Newer node of the C6 witness (five seconds later). -/
def C6w2 : ServiceNode := mkNode "A" "prod" 2 "2024-05-01 10:00:05" ["/svc/M"]

/-- Rebuild time of the C6 witness. -/
def C6wnow : Nat := toSeconds ⟨2024, 5, 1, 10, 0, 5⟩

/-- Witness for C6: the rebuilt list puts the newer node first and the
ordering property holds on it. -/
theorem C6_witness :
    ([C6w2, C6w1] : List ServiceNode).Pairwise
      (fun a b => ∃ da db, parseDateTime a.runDate = some da ∧
        parseDateTime b.runDate = some db ∧ dateKey db ≤ dateKey da ∧
        (a.runDate ≠ b.runDate → dateKey db < dateKey da)) :=
  C6_fresh_ordering "prod" 10 C6wnow [some C6w1, some C6w2] "A" [C6w2, C6w1]
    (by decide)

/-- Claim C7: every node visible through the rebuilt service index — and
hence through GetService — passed all rebuild filters: it unmarshalled,
carries a complete meta matching the cache's env, and its run_date is
non-empty, parseable and not older than ttl seconds before the rebuild
time; entries failing any of these are excluded even when present in the
raw snapshot. -/
theorem C7_staleness_filtering (env : String) (ttl now : Nat)
    (data : List (Option ServiceNode)) (ap sm : String) (ns : List ServiceNode)
    (n : ServiceNode) :
    (alookup ap (rebuild env ttl now data).service = some ns → n ∈ ns →
      goodNode env ttl now n) ∧
    (GetService (rebuild env ttl now data) sm = Except.ok ns → n ∈ ns →
      goodNode env ttl now n) := by
  refine ⟨fun hns hn => rebuild_mem_good env ttl now data ap ns n hns hn, ?_⟩
  intro hok hn
  unfold GetService at hok
  split at hok
  · cases hok
  rename_i ap' h1
  split at hok
  · cases hok
  rename_i ns' h2
  injection hok with hok
  subst hok
  exact rebuild_mem_good env ttl now data ap' ns' n h2 hn

/-- Stale node of the C7 witness (an hour older than the rebuild time). -/
def C7stale : ServiceNode := mkNode "A" "prod" 1 "2024-05-01 09:00:00" ["/svc/M"]

/-- Fresh node of the C7 witness. -/
def C7fresh : ServiceNode := mkNode "A" "prod" 2 "2024-05-01 10:00:00" ["/svc/M"]

/-- Foreign-environment node of the C7 witness. -/
def C7foreign : ServiceNode := mkNode "A" "dev" 3 "2024-05-01 10:00:00" ["/svc/M"]

/-- Unparseable-run-date node of the C7 witness. -/
def C7bad : ServiceNode := mkNode "A" "prod" 4 "garbage" ["/svc/M"]

/-- Rebuild time of the C7 witness. -/
def C7now : Nat := toSeconds ⟨2024, 5, 1, 10, 0, 0⟩

/-- Raw snapshot of the C7 witness: a stale entry, an unmarshal failure, a
foreign-env entry, an unparseable-date entry and one good entry. -/
def C7data : List (Option ServiceNode) :=
  [some C7stale, none, some C7foreign, some C7bad, some C7fresh]

/-- Witness for C7: only the fresh node survives the rebuild, and the claim
theorem certifies it passed every filter. -/
theorem C7_witness :
    alookup "A" (rebuild "prod" 10 C7now C7data).service = some [C7fresh] ∧
    goodNode "prod" 10 C7now C7fresh :=
  ⟨by decide,
   (C7_staleness_filtering "prod" 10 C7now C7data "A" "/svc/M" [C7fresh]
     C7fresh).1 (by decide) (by decide)⟩

/-- Claim C8: replaying the same watch event twice yields exactly the same
service and method maps (same value at every key — Go map equality) as
applying it once, and a replayed upsert leaves exactly one entry with the
event's leaseId in its appId's list. -/
theorem C8_idempotent_replay (st : DiscoverState) (e : WatchEvent)
    (hwf : ServiceWF st) :
    (∀ ap, alookup ap (adapter (adapter st e) e).service =
      alookup ap (adapter st e).service) ∧
    (∀ sm, alookup sm (adapter (adapter st e) e).method =
      alookup sm (adapter st e).method) ∧
    (∀ v, eventNode e = some v → e.type = EventType.put →
      ∀ ns, alookup (metaAppId v) (adapter st e).service = some ns →
        ns.countP (fun n => n.leaseId == v.leaseId) = 1) := by
  refine ⟨(adapter_idempotent st e hwf).1, (adapter_idempotent st e hwf).2, ?_⟩
  intro v hev hty ns hns
  rw [adapter_eq_eventNode, hev, hty] at hns
  replace hns : alookup (metaAppId v)
      (upsertNodeLocked st (metaAppId v) v).service = some ns := hns
  rw [upsert_service_eq, alookup_ainsert_self] at hns
  replace hns := Option.some.inj hns
  subst hns
  rw [List.countP_cons]
  have hz : (((alookup (metaAppId v) st.service).getD []).filter
      (fun n => n.leaseId ≠ v.leaseId)).countP
        (fun n => n.leaseId == v.leaseId) = 0 := by
    rw [List.countP_eq_zero]
    intro n hn
    have := kept_lease_ne st (metaAppId v) v n hn
    simpa using this
  simp [hz]

/-- Base state of the C8 witness: one installed node under leaseId 1. -/
def C8st : DiscoverState :=
  applyEvents emptyState [putEvent (mkNode "A" "prod" 1 "" ["/x"])]

/-- Node of the C8 witness replayed event (same leaseId, new methods). -/
def C8node : ServiceNode := mkNode "A" "prod" 1 "" ["/y"]

/-- The replayed watch event of the C8 witness. -/
def C8e : WatchEvent := putEvent C8node

/-- Witness for C8 at concrete lookups. -/
theorem C8_witness :
    alookup "A" (adapter (adapter C8st C8e) C8e).service =
      alookup "A" (adapter C8st C8e).service ∧
    alookup "/y" (adapter (adapter C8st C8e) C8e).method =
      alookup "/y" (adapter C8st C8e).method ∧
    ([C8node] : List ServiceNode).countP
      (fun n => n.leaseId == C8node.leaseId) = 1 := by
  have hwf : ServiceWF C8st := ⟨by decide, by decide⟩
  exact ⟨(C8_idempotent_replay C8st C8e hwf).1 "A",
    (C8_idempotent_replay C8st C8e hwf).2.1 "/y",
    (C8_idempotent_replay C8st C8e hwf).2.2 C8node (by decide) rfl
      [C8node] (by decide)⟩

end GoMicro
